import Mathlib

/-!
The partition read-back cursor `PartitionerExec` of `executor/partitioner.go`.

A shallow embedding of `PartitionerExec` (its fields and its three methods
`Open`, `Close` and `Next`) together with the properties of the cursor that
the specification states.

Modelling conventions

* Go `int` values (`partitionIdx`, `chkIdx`, the chunk count) are `Int`.  The
  only arithmetic in the source is `e.chkIdx++`, executed only when
  `e.chkIdx < chkNum` for a chunk count `chkNum` that is itself a Go `int`, so
  the increment cannot overflow (see `Next_chkIdx_le`).
* `sync.WaitGroup` is its 32-bit counter; `Add` wraps to 32 bits and panics on
  a negative result, as the Go runtime does.  Waiters are other goroutines and
  are not part of this sequential model.
* `chunk.PartitionInDisk` and `baseExecutor` are declared outside the two
  source files; their methods are parameters of the model.
* Every method returns, besides the new cursor and the error, the trace of the
  calls it made on its collaborators, in program order.

The namespace `Generator` embeds `expression/generator/control_vec.go`: the
function that the template `builtinIfVec` generates, over a model of
`chunk.Column`, and the driver `generateDotGo` with the table `typesMap`.
-/

namespace Partitioner

/-! ## Collaborators -/

/-- A Go `error` value as far as the cursor can tell errors apart: the identity
of the underlying cause and whether a stack trace has been attached. -/
structure Error where
  cause : Nat
  hasStack : Bool
deriving DecidableEq, Repr

/-- The function `errors.Trace` of `github.com/pingcap/errors`: `nil` stays
`nil`; any other error gets a stack trace attached unless it already has one.
The cause is never changed. -/
def errorsTrace : Option Error → Option Error
  | none => none
  | some err => some { err with hasStack := true }

/-- A row batch `chunk.Chunk`: the rows it currently holds. -/
structure Chunk where
  rows : List (List Int)
deriving DecidableEq, Repr

/-- Number of rows of a chunk, `Chunk.NumRows`. -/
def Chunk.NumRows (c : Chunk) : Nat := c.rows.length

/-- The three methods of `*chunk.PartitionInDisk` that the cursor calls, as
they answer at one moment.

* `NumChunks partIdx` is `(int, error)`: the count, or the error.
* `GetChunk partIdx chkIdx req` is given the current content of the caller's
  buffer and answers with the content it leaves in the buffer and the error.
* `Close partIdx` answers with the error.

A store whose answers change over time is modelled by replacing this record
between two calls of the cursor. -/
structure PartitionInDisk where
  NumChunks : Int → Except Error Int
  GetChunk : Int → Int → Chunk → Chunk × Option Error
  Close : Int → Option Error

/-- The run-time panic of `sync.WaitGroup`. -/
inductive Panic where
  | negativeWaitGroupCounter
deriving DecidableEq, Repr

/-- Reading of an integer as a two's complement 32-bit value. -/
def toInt32 (x : Int) : Int := (x + 2147483648) % 4294967296 - 2147483648

/-- The counter of a `sync.WaitGroup`; the zero value `sync.WaitGroup{}` has
counter `0`. -/
structure WaitGroup where
  counter : Int := 0
deriving DecidableEq, Repr

/-- The method `WaitGroup.Add`: adds `delta` to the 32-bit counter and panics
when the counter becomes negative. -/
def WaitGroup.Add (wg : WaitGroup) (delta : Int) : Except Panic WaitGroup :=
  if toInt32 (wg.counter + delta) < 0 then .error .negativeWaitGroupCounter
  else .ok { counter := toInt32 (wg.counter + delta) }

/-- The method `WaitGroup.Done`, which is `Add(-1)`. -/
def WaitGroup.Done (wg : WaitGroup) : Except Panic WaitGroup := wg.Add (-1)

/-- A call made by the cursor on one of its collaborators.  `wgAdd delta before`
is a call `partitionWaitGroup.Add(delta)` (`Done` is `Add(-1)`) issued when the
counter was `before`. -/
inductive Event where
  | baseOpen
  | baseClose
  | wgAdd (delta before : Int)
  | numChunks (partIdx : Int)
  | getChunk (partIdx chkIdx : Int)
  | storeClose (partIdx : Int)
deriving DecidableEq, Repr

/-! ## The cursor -/

/-- The struct `PartitionerExec`; `β` is the state of the embedded
`baseExecutor`. -/
structure PartitionerExec (β : Type) where
  baseExecutor : β
  partitionIdx : Int
  chkIdx : Int
  partitionInDisk : PartitionInDisk
  prepared : Bool
  partitionWaitGroup : WaitGroup

/-- What `Open` and `Close` leave behind: the cursor, the returned error and the
calls made. -/
structure CallResult (β : Type) where
  exec : PartitionerExec β
  err : Option Error
  trace : List Event

/-- What `Next` leaves behind: the cursor, the caller's buffer `req`, the
returned error and the calls made. -/
structure NextResult (β : Type) where
  exec : PartitionerExec β
  req : Chunk
  err : Option Error
  trace : List Event

/-- The method `PartitionerExec.Open` (lines 41-49); `baseOpen` is
`baseExecutor.Open`. -/
def Open {β : Type} (baseOpen : β → β × Option Error) (e : PartitionerExec β) :
    CallResult β :=
  match (baseOpen e.baseExecutor).2 with
  | some err =>
    { exec := { e with baseExecutor := (baseOpen e.baseExecutor).1 }
      err := some err
      trace := [Event.baseOpen] }
  | none =>
    { exec := { e with
        baseExecutor := (baseOpen e.baseExecutor).1
        prepared := false
        partitionWaitGroup := {} }
      err := none
      trace := [Event.baseOpen] }

/-- The method `PartitionerExec.Close` (lines 52-60); `baseClose` is
`baseExecutor.Close`. -/
def Close {β : Type} (baseClose : β → β × Option Error) (e : PartitionerExec β) :
    CallResult β :=
  match e.partitionInDisk.Close e.partitionIdx with
  | some err =>
    { exec := e
      err := some err
      trace := [Event.storeClose e.partitionIdx] }
  | none =>
    { exec := { e with baseExecutor := (baseClose e.baseExecutor).1 }
      err := errorsTrace (baseClose e.baseExecutor).2
      trace := [Event.storeClose e.partitionIdx, Event.baseClose] }

/-- Lines 66-69 of `Next`: a cursor that is not `prepared` adds one to the wait
group and becomes `prepared`. -/
def enterPass {β : Type} (e : PartitionerExec β) :
    Except Panic (PartitionerExec β × List Event) :=
  if e.prepared then .ok (e, [])
  else
    match e.partitionWaitGroup.Add 1 with
    | .error p => .error p
    | .ok wg =>
      .ok ({ e with partitionWaitGroup := wg, prepared := true },
        [Event.wgAdd 1 e.partitionWaitGroup.counter])

/-- Lines 71-84 of `Next`, run on the cursor `e` left by `enterPass` with the
trace `t` so far. -/
def readChunk {β : Type} (e : PartitionerExec β) (t : List Event) (req : Chunk) :
    Except Panic (NextResult β) :=
  match e.partitionInDisk.NumChunks e.partitionIdx with
  | .error err =>
    .ok { exec := e, req := req, err := errorsTrace (some err)
          trace := t ++ [Event.numChunks e.partitionIdx] }
  | .ok chkNum =>
    if e.chkIdx ≥ chkNum then
      match e.partitionWaitGroup.Done with
      | .error p => .error p
      | .ok wg =>
        .ok { exec := { e with partitionWaitGroup := wg, prepared := false }
              req := req, err := none
              trace := t ++ [Event.numChunks e.partitionIdx,
                Event.wgAdd (-1) e.partitionWaitGroup.counter] }
    else
      match (e.partitionInDisk.GetChunk e.partitionIdx e.chkIdx req).2 with
      | some err =>
        .ok { exec := e
              req := (e.partitionInDisk.GetChunk e.partitionIdx e.chkIdx req).1
              err := errorsTrace (some err)
              trace := t ++ [Event.numChunks e.partitionIdx,
                Event.getChunk e.partitionIdx e.chkIdx] }
      | none =>
        .ok { exec := { e with chkIdx := e.chkIdx + 1 }
              req := (e.partitionInDisk.GetChunk e.partitionIdx e.chkIdx req).1
              err := none
              trace := t ++ [Event.numChunks e.partitionIdx,
                Event.getChunk e.partitionIdx e.chkIdx] }

/-- The method `PartitionerExec.Next` (lines 65-85). -/
def Next {β : Type} (e : PartitionerExec β) (req : Chunk) :
    Except Panic (NextResult β) :=
  match enterPass e with
  | .error p => .error p
  | .ok (e1, t1) => readChunk e1 t1 req

/-- A sequence of `Next` calls.  Each call comes with the answers the store
gives during that call and with the buffer the caller passes; the results of
the calls are collected in order.  A panic ends the run. -/
def runNext {β : Type} (e : PartitionerExec β) :
    List (PartitionInDisk × Chunk) → Except Panic (List (NextResult β))
  | [] => .ok []
  | (st, req) :: calls =>
    match Next { e with partitionInDisk := st } req with
    | .error p => .error p
    | .ok r =>
      match runNext r.exec calls with
      | .error p => .error p
      | .ok rs => .ok (r :: rs)

/-! ## Observations -/

/-- The wait group and the `prepared` flag agree: one outstanding pass while
`prepared`, none otherwise. -/
def BarrierConsistent {β : Type} (e : PartitionerExec β) : Prop :=
  e.partitionWaitGroup.counter = if e.prepared then 1 else 0

instance {β : Type} (e : PartitionerExec β) : Decidable (BarrierConsistent e) := by
  unfold BarrierConsistent; exact inferInstance

/-- The `(partitionIdx, chkIdx)` pairs of the `GetChunk` calls in a trace. -/
def fetched : List Event → List (Int × Int)
  | [] => []
  | Event.getChunk p i :: t => (p, i) :: fetched t
  | _ :: t => fetched t

/-- The partitions addressed by the `NumChunks` calls in a trace. -/
def queried : List Event → List Int
  | [] => []
  | Event.numChunks p :: t => p :: queried t
  | _ :: t => queried t

/-- The partitions released by the store `Close` calls in a trace. -/
def released : List Event → List Int
  | [] => []
  | Event.storeClose p :: t => p :: released t
  | _ :: t => released t

/-- The end-of-partition signal of `Next`: no error and no chunk fetched. -/
def NextResult.endOfPartition {β : Type} (r : NextResult β) : Prop :=
  r.err = none ∧ fetched r.trace = []

instance {β : Type} (r : NextResult β) : Decidable r.endOfPartition := by
  unfold NextResult.endOfPartition; exact inferInstance

/-- The cursor as `enterPass` leaves it when the barrier is consistent. -/
def entered {β : Type} (e : PartitionerExec β) : PartitionerExec β :=
  { e with partitionWaitGroup := { counter := 1 }, prepared := true }

/-- The calls `enterPass` makes when the barrier is consistent. -/
def enterTrace {β : Type} (e : PartitionerExec β) : List Event :=
  if e.prepared then [] else [Event.wgAdd 1 0]

/-! ## Sample collaborators -/

/-- A store that never fails, holds `n` chunks in every partition, and reads
chunk `i` of partition `p` as the single row `[p, i]`. -/
def constStore (n : Int) : PartitionInDisk where
  NumChunks := fun _ => .ok n
  GetChunk := fun p i _ => ({ rows := [[p, i]] }, none)
  Close := fun _ => none

/-- A store like `constStore n` whose `GetChunk` fails at chunk index `bad` with
cause `7`, leaving the buffer as it was. -/
def faultyStore (n bad : Int) : PartitionInDisk where
  NumChunks := fun _ => .ok n
  GetChunk := fun p i req =>
    if i = bad then (req, some { cause := 7, hasStack := false })
    else ({ rows := [[p, i]] }, none)
  Close := fun _ => none

/-- A store whose every method fails with cause `9`. -/
def brokenStore : PartitionInDisk where
  NumChunks := fun _ => .error { cause := 9, hasStack := false }
  GetChunk := fun _ _ req => (req, some { cause := 9, hasStack := false })
  Close := fun _ => some { cause := 9, hasStack := false }

/-- A `baseExecutor` whose state counts the calls made on it and whose `Open`
and `Close` succeed. -/
def baseOk : Nat → Nat × Option Error := fun n => (n + 1, none)

/-- A `baseExecutor` whose `Open` and `Close` fail with cause `5`. -/
def baseFail : Nat → Nat × Option Error :=
  fun n => (n + 1, some { cause := 5, hasStack := false })

/-- A cursor bound to partition `p` of `st`, as constructed and not yet opened:
all other fields have their zero value. -/
def newExec (st : PartitionInDisk) (p : Int) : PartitionerExec Nat where
  baseExecutor := 0
  partitionIdx := p
  chkIdx := 0
  partitionInDisk := st
  prepared := false
  partitionWaitGroup := {}

/-- An empty buffer. -/
def emptyChunk : Chunk := { rows := [] }

/-- A cursor on partition `0` of a two-chunk store that has read both chunks
and given the end-of-partition signal. -/
def exhaustedExec : PartitionerExec Nat :=
  { newExec (constStore 2) 0 with chkIdx := 2 }

/-! ## Sequences of calls -/

/-- One call on the cursor.  A call of `Next` or `Close` comes with the answers
the store gives during that call; a call of `Next` also with the caller's
buffer. -/
inductive Op where
  | callOpen
  | callNext (st : PartitionInDisk) (req : Chunk)
  | callClose (st : PartitionInDisk)

/-- One call on the cursor: the cursor, the returned error and the calls made,
or the panic that ended it. -/
def step {β : Type} (baseOpen baseClose : β → β × Option Error)
    (e : PartitionerExec β) : Op → Except Panic (CallResult β)
  | Op.callOpen => .ok (Open baseOpen e)
  | Op.callNext st req =>
    match Next { e with partitionInDisk := st } req with
    | .error p => .error p
    | .ok r => .ok { exec := r.exec, err := r.err, trace := r.trace }
  | Op.callClose st => .ok (Close baseClose { e with partitionInDisk := st })

/-- A sequence of `Open`, `Next` and `Close` calls, in any order; the results of
the calls are collected in order.  A panic ends the run. -/
def runOps {β : Type} (baseOpen baseClose : β → β × Option Error)
    (e : PartitionerExec β) : List Op → Except Panic (List (CallResult β))
  | [] => .ok []
  | op :: ops =>
    match step baseOpen baseClose e op with
    | .error p => .error p
    | .ok r =>
      match runOps baseOpen baseClose r.exec ops with
      | .error p => .error p
      | .ok rs => .ok (r :: rs)

/-- The partition addressed by each call on the store in a trace (`NumChunks`,
`GetChunk` or `Close`), in order. -/
def storeCalls : List Event → List Int
  | [] => []
  | Event.numChunks p :: t => p :: storeCalls t
  | Event.getChunk p _ :: t => p :: storeCalls t
  | Event.storeClose p :: t => p :: storeCalls t
  | _ :: t => storeCalls t

/-- The calls on the wait group in a trace, as pairs of `delta` and the counter
before the call, in order. -/
def barrierCalls : List Event → List (Int × Int)
  | [] => []
  | Event.wgAdd d b :: t => (d, b) :: barrierCalls t
  | _ :: t => barrierCalls t

/-- A cursor on partition `0` of a two-chunk store that has read both chunks and
whose pass is still open. -/
def activeExec : PartitionerExec Nat :=
  { newExec (constStore 2) 0 with
    chkIdx := 2, prepared := true, partitionWaitGroup := { counter := 1 } }

end Partitioner

namespace Generator

open Partitioner (Error)

/-! ## The generated vectorised IF of `expression/generator/control_vec.go` -/

/-- The run-time panic of an index expression out of range. -/
inductive VecPanic where
  | indexOutOfRange
deriving DecidableEq, Repr

/-- Modelled from the spec: `chunk.Column` is declared in `util/chunk`, outside
the source files, and the spec leaves the columnar encoding of a row batch to
that package.  The model keeps what the generated code reads and writes: for
each row a NULL flag and a value slot. -/
structure Column (α : Type) where
  nulls : List Bool
  data : List α
deriving DecidableEq, Repr

/-- Number of rows of a column. -/
def Column.NumRows {α : Type} (c : Column α) : Nat := c.nulls.length

/-- An index expression `xs[i]` used as a value. -/
def indexAt {α : Type} (xs : List α) (i : Nat) : Except VecPanic α :=
  match xs[i]? with
  | some v => .ok v
  | none => .error .indexOutOfRange

/-- An assignment `xs[i] = v`. -/
def setAt {α : Type} (xs : List α) (i : Nat) (v : α) : Except VecPanic (List α) :=
  if i < xs.length then .ok (xs.set i v) else .error .indexOutOfRange

/-- The method `Column.IsNull(i)`. -/
def Column.IsNull {α : Type} (c : Column α) (i : Nat) : Except VecPanic Bool :=
  indexAt c.nulls i

/-- The method `Column.SetNull(i, isNull)`. -/
def Column.SetNull {α : Type} (c : Column α) (i : Nat) (isNull : Bool) :
    Except VecPanic (Column α) :=
  match setAt c.nulls i isNull with
  | .error p => .error p
  | .ok ns => .ok { c with nulls := ns }

/-- The methods `Column.Resize<T>(n, isNull)` of the fixed-length types: the
column gets `n` rows, all with the NULL flag `isNull`; `stale i` is what the
value slot of row `i` holds afterwards, which the caller does not control. -/
def Column.Resize {α : Type} (_c : Column α) (n : Nat) (isNull : Bool) (stale : Nat → α) :
    Column α :=
  { nulls := List.replicate n isNull, data := (List.range n).map stale }

/-- The methods `Column.Reserve<T>(n)` of the variable-length types: the column
is emptied, with room for `n` rows. -/
def Column.Reserve {α : Type} (_c : Column α) (_n : Nat) : Column α :=
  { nulls := [], data := [] }

/-- The method `Column.AppendNull()`: one more row, NULL. -/
def Column.AppendNull {α : Type} [Inhabited α] (c : Column α) : Column α :=
  { nulls := c.nulls ++ [true], data := c.data ++ [default] }

/-- The methods `Column.Append<T>(v)`: one more row, holding `v`. -/
def Column.Append {α : Type} (c : Column α) (v : α) : Column α :=
  { nulls := c.nulls ++ [false], data := c.data ++ [v] }

/-- The methods `Column.Get<T>(i)`. -/
def Column.Get {α : Type} (c : Column α) (i : Nat) : Except VecPanic α :=
  indexAt c.data i

/-- Row `i` as a reader of the column sees it: `none` when the column has no
row `i`, `some none` for NULL, `some (some v)` for the value `v`. -/
def Column.row {α : Type} (c : Column α) (i : Nat) : Option (Option α) :=
  match c.nulls[i]?, c.data[i]? with
  | some true, _ => some none
  | some false, some v => some (some v)
  | _, _ => none

/-- What the generated function is given besides `result`: the number of rows
of `input`, and for each of the three arguments the outcome of
`bufAllocator.get` and the outcome of the `VecEval` call, which is the buffer
as the call filled it or the error. -/
structure IfInput (α : Type) where
  n : Nat
  get0 : Option Error
  eval0 : Except Error (Column Int)
  get1 : Option Error
  eval1 : Except Error (Column α)
  get2 : Option Error
  eval2 : Except Error (Column α)

/-- The state of the row loop: the result column and, for each row written so
far, its index and which argument (`1` or `2`) it was taken from. -/
structure LoopState (α : Type) where
  result : Column α
  written : List (Nat × Nat)

/-- What the generated function leaves behind. -/
structure VecResult (α : Type) where
  result : Column α
  err : Option Error
  written : List (Nat × Nat)

/-- The body of one `case` of the switch (lines 100-112 and 114-126, which
differ in the buffer only): row `i` of `buf`, the buffer of argument `k`, is
written to the result, in place for a fixed-length type and by appending for a
variable-length one. -/
def writeRow {α : Type} [Inhabited α] (fixed : Bool) (k : Nat) (buf : Column α) (i : Nat)
    (s : LoopState α) : Except VecPanic (LoopState α) :=
  if fixed then
    match buf.IsNull i with
    | .error p => .error p
    | .ok true =>
      match s.result.SetNull i true with
      | .error p => .error p
      | .ok r => .ok { result := r, written := s.written ++ [(i, k)] }
    | .ok false =>
      match indexAt buf.data i with
      | .error p => .error p
      | .ok v =>
        match setAt s.result.data i v with
        | .error p => .error p
        | .ok d => .ok { result := { s.result with data := d }, written := s.written ++ [(i, k)] }
  else
    match buf.IsNull i with
    | .error p => .error p
    | .ok true =>
      .ok { result := s.result.AppendNull, written := s.written ++ [(s.result.NumRows, k)] }
    | .ok false =>
      match buf.Get i with
      | .error p => .error p
      | .ok v =>
        .ok { result := s.result.Append v, written := s.written ++ [(s.result.NumRows, k)] }

/-- The body of the row loop (lines 96-127). -/
def rowBody {α : Type} [Inhabited α] (fixed : Bool) (buf0 : Column Int) (buf1 buf2 : Column α)
    (i : Nat) (s : LoopState α) : Except VecPanic (LoopState α) :=
  match indexAt buf0.data i with
  | .error p => .error p
  | .ok arg =>
    match buf0.IsNull i with
    | .error p => .error p
    | .ok isNull0 =>
      if isNull0 || arg == 0 then writeRow fixed 2 buf2 i s
      else if arg != 0 then writeRow fixed 1 buf1 i s
      else .ok s

/-- The loop `for i := i0; i < i0 + k; i++` over `body`. -/
def forRows {σ : Type} (body : Nat → σ → Except VecPanic σ) : Nat → Nat → σ → Except VecPanic σ
  | _, 0, s => .ok s
  | i, k + 1, s =>
    match body i s with
    | .error p => .error p
    | .ok s1 => forRows body (i + 1) k s1

/-- The function `vecEval<TypeName>` that the template `builtinIfVec` generates
(lines 55-130); `fixed` is the template's `.Fixed`. -/
def vecEval {α : Type} [Inhabited α] (fixed : Bool) (a : IfInput α) (stale : Nat → α)
    (result : Column α) : Except VecPanic (VecResult α) :=
  match a.get0 with
  | some err => .ok { result := result, err := some err, written := [] }
  | none =>
  match a.eval0 with
  | .error err => .ok { result := result, err := some err, written := [] }
  | .ok buf0 =>
  match a.get1 with
  | some err => .ok { result := result, err := some err, written := [] }
  | none =>
  match a.eval1 with
  | .error err => .ok { result := result, err := some err, written := [] }
  | .ok buf1 =>
  match a.get2 with
  | some err => .ok { result := result, err := some err, written := [] }
  | none =>
  match a.eval2 with
  | .error err => .ok { result := result, err := some err, written := [] }
  | .ok buf2 =>
    match forRows (rowBody fixed buf0 buf1 buf2) 0 a.n
        { result := if fixed then result.Resize a.n false stale else result.Reserve a.n
          written := [] } with
    | .error p => .error p
    | .ok s => .ok { result := s.result, err := none, written := s.written }

/-- Three argument buffers of four rows: the condition is `1, 0, NULL, NULL`
(the second NULL row has the stale value `7` in its slot), the second argument
is `10, 11, NULL, 13` and the third is `20, NULL, 22, 23`. -/
def sampleInput : IfInput Int where
  n := 4
  get0 := none
  eval0 := .ok { nulls := [false, false, true, true], data := [1, 0, 0, 7] }
  get1 := none
  eval1 := .ok { nulls := [false, false, true, false], data := [10, 11, 0, 13] }
  get2 := none
  eval2 := .ok { nulls := [false, true, false, false], data := [20, 0, 22, 23] }

/-! ## The generator driver of `expression/generator/control_vec.go` -/

/-- The struct `typeContext` (lines 172-185). -/
structure typeContext where
  ETName : String
  TypeName : String
  TypeNameInColumn : String
  Fixed : Bool
deriving DecidableEq, Repr

/-- The table `typesMap` (lines 187-195); a field that the source leaves out has
the zero value, the empty string. -/
def typesMap : List typeContext :=
  [ { ETName := "Int", TypeName := "", TypeNameInColumn := "Int64", Fixed := true },
    { ETName := "Real", TypeName := "", TypeNameInColumn := "Float64", Fixed := true },
    { ETName := "Decimal", TypeName := "", TypeNameInColumn := "", Fixed := true },
    { ETName := "String", TypeName := "", TypeNameInColumn := "", Fixed := false },
    { ETName := "Datetime", TypeName := "Time", TypeNameInColumn := "", Fixed := true },
    { ETName := "Duration", TypeName := "", TypeNameInColumn := "GoDuration", Fixed := true },
    { ETName := "Json", TypeName := "JSON", TypeNameInColumn := "", Fixed := false } ]

/-- The constant `header` (lines 28-44). -/
def header : String :=
  "// Copyright 2019 PingCAP, Inc.\n" ++
  "//\n" ++
  "// Licensed under the Apache License, Version 2.0 (the \"License\");\n" ++
  "// you may not use this file except in compliance with the License.\n" ++
  "// You may obtain a copy of the License at\n" ++
  "//\n" ++
  "//     http://www.apache.org/licenses/LICENSE-2.0\n" ++
  "//\n" ++
  "// Unless required by applicable law or agreed to in writing, software\n" ++
  "// distributed under the License is distributed on an \"AS IS\" BASIS,\n" ++
  "// See the License for the specific language governing permissions and\n" ++
  "// limitations under the License.\n" ++
  "\n" ++
  "// Code generated by go generate in expression/generator; DO NOT EDIT.\n" ++
  "\n" ++
  "package expression\n"

/-- The constant `newLine`. -/
def newLine : String := "\n"

/-- What `generateDotGo` leaves behind: the returned error, the `Execute` calls
made (template and data, in order), the `types` slice as it is afterwards, and
the file written, if any, as name and content. -/
structure GenResult (τ : Type) where
  err : Option Error
  executed : List (τ × typeContext)
  types : List typeContext
  written : Option (String × String)

/-- The state of the loops of `generateDotGo`: the buffer `w`, the `types`
slice, and the `Execute` calls made so far. -/
structure GenState (τ : Type) where
  w : String
  types : List typeContext
  executed : List (τ × typeContext)

/-- The inner loop `for _, ctx := range types` (lines 203-214) from position
`i` on, with `k` elements left.  The loop variable `ctx` is a copy of
`types[i]`; the two assignments change the copy.  The result is the error of
the first failing `Execute`, if any, with the state. -/
def rangeTypes {τ : Type} (execute : τ → typeContext → Except Error String) (tmpl : τ) :
    Nat → Nat → GenState τ → Option Error × GenState τ
  | _, 0, s => (none, s)
  | i, k + 1, s =>
    match s.types[i]? with
    | none => (none, s)
    | some ctx =>
      let ctx1 := if ctx.TypeName = "" then { ctx with TypeName := ctx.ETName } else ctx
      let ctx2 :=
        if ctx1.TypeNameInColumn = "" then { ctx1 with TypeNameInColumn := ctx1.TypeName }
        else ctx1
      match execute tmpl ctx2 with
      | .error err => (some err, { s with executed := s.executed ++ [(tmpl, ctx2)] })
      | .ok out =>
        rangeTypes execute tmpl (i + 1) k
          { s with w := s.w ++ out, executed := s.executed ++ [(tmpl, ctx2)] }

/-- The outer loop `for _, tmpl := range tmpls` (lines 202-215). -/
def rangeTmpls {τ : Type} (execute : τ → typeContext → Except Error String) :
    List τ → GenState τ → Option Error × GenState τ
  | [], s => (none, s)
  | tmpl :: rest, s =>
    match rangeTypes execute tmpl 0 s.types.length s with
    | (some err, s1) => (some err, s1)
    | (none, s1) => rangeTmpls execute rest s1

/-- The function `generateDotGo` (lines 197-222).  `execute` is
`Template.Execute`, answering with the text it writes or the error;
`formatSource` is `format.Source`; `writeFile` is `ioutil.WriteFile`. -/
def generateDotGo {τ : Type}
    (execute : τ → typeContext → Except Error String)
    (formatSource : String → Except Error String)
    (writeFile : String → String → Option Error)
    (fileName : String) (imports : String) (types : List typeContext) (tmpls : List τ) :
    GenResult τ :=
  match rangeTmpls execute tmpls
      { w := header ++ newLine ++ imports, types := types, executed := [] } with
  | (some err, s) =>
    { err := some err, executed := s.executed, types := s.types, written := none }
  | (none, s) =>
    match formatSource s.w with
    | .error _ =>
      { err := writeFile fileName s.w, executed := s.executed, types := s.types
        written := some (fileName, s.w) }
    | .ok data =>
      { err := writeFile fileName data, executed := s.executed, types := s.types
        written := some (fileName, data) }

/-- The names the templates are to be executed with, as the comments of
`typeContext` define them: `TypeName` is `ETName` when undefined, and
`TypeNameInColumn` is that `TypeName` when undefined. -/
def resolvedNames (ctx : typeContext) : typeContext :=
  { ETName := ctx.ETName
    TypeName := if ctx.TypeName = "" then ctx.ETName else ctx.TypeName
    TypeNameInColumn :=
      if ctx.TypeNameInColumn = "" then
        (if ctx.TypeName = "" then ctx.ETName else ctx.TypeName)
      else ctx.TypeNameInColumn
    Fixed := ctx.Fixed }

/-- A template engine that writes the three names of its data. -/
def sampleExecute : Nat → typeContext → Except Error String :=
  fun _ ctx => .ok (ctx.ETName ++ ctx.TypeName ++ ctx.TypeNameInColumn)

end Generator

namespace Partitioner

/-! ## Stepping lemmas -/

theorem enterPass_consistent {β : Type} (e : PartitionerExec β)
    (h : BarrierConsistent e) : enterPass e = .ok (entered e, enterTrace e) := by
  obtain ⟨b, p, c, s, pr, ⟨w⟩⟩ := e
  cases pr <;> simp [BarrierConsistent] at h <;> subst h <;>
    simp [enterPass, entered, enterTrace, WaitGroup.Add, toInt32]

theorem Next_numChunks_error {β : Type} (e : PartitionerExec β) (req : Chunk)
    (err : Error) (h : BarrierConsistent e)
    (hn : e.partitionInDisk.NumChunks e.partitionIdx = .error err) :
    Next e req = .ok
      { exec := entered e, req := req, err := errorsTrace (some err)
        trace := enterTrace e ++ [Event.numChunks e.partitionIdx] } := by
  have hn1 : (entered e).partitionInDisk.NumChunks (entered e).partitionIdx = .error err := hn
  simp [Next, enterPass_consistent e h, readChunk, hn1]
  rfl

theorem Next_exhausted {β : Type} (e : PartitionerExec β) (req : Chunk)
    (n : Int) (h : BarrierConsistent e)
    (hn : e.partitionInDisk.NumChunks e.partitionIdx = .ok n) (hc : n ≤ e.chkIdx) :
    Next e req = .ok
      { exec := { e with partitionWaitGroup := { counter := 0 }, prepared := false }
        req := req, err := none
        trace := enterTrace e ++ [Event.numChunks e.partitionIdx, Event.wgAdd (-1) 1] } := by
  have hn1 : (entered e).partitionInDisk.NumChunks (entered e).partitionIdx = .ok n := hn
  have hc1 : n ≤ (entered e).chkIdx := hc
  simp [Next, enterPass_consistent e h, readChunk, hn1, hc1, WaitGroup.Done, WaitGroup.Add]
  simp [entered, toInt32]

theorem Next_getChunk_error {β : Type} (e : PartitionerExec β) (req : Chunk)
    (n : Int) (err : Error) (h : BarrierConsistent e)
    (hn : e.partitionInDisk.NumChunks e.partitionIdx = .ok n) (hc : e.chkIdx < n)
    (hg : (e.partitionInDisk.GetChunk e.partitionIdx e.chkIdx req).2 = some err) :
    Next e req = .ok
      { exec := entered e
        req := (e.partitionInDisk.GetChunk e.partitionIdx e.chkIdx req).1
        err := errorsTrace (some err)
        trace := enterTrace e ++
          [Event.numChunks e.partitionIdx, Event.getChunk e.partitionIdx e.chkIdx] } := by
  have hn1 : (entered e).partitionInDisk.NumChunks (entered e).partitionIdx = .ok n := hn
  have hc1 : ¬ n ≤ (entered e).chkIdx := not_le.mpr hc
  have hg1 : ((entered e).partitionInDisk.GetChunk (entered e).partitionIdx
      (entered e).chkIdx req).2 = some err := hg
  simp only [Next, enterPass_consistent e h, readChunk, hn1, ge_iff_le, hc1, if_false]
  rw [hg1]
  rfl

theorem Next_getChunk_ok {β : Type} (e : PartitionerExec β) (req : Chunk)
    (n : Int) (h : BarrierConsistent e)
    (hn : e.partitionInDisk.NumChunks e.partitionIdx = .ok n) (hc : e.chkIdx < n)
    (hg : (e.partitionInDisk.GetChunk e.partitionIdx e.chkIdx req).2 = none) :
    Next e req = .ok
      { exec := { entered e with chkIdx := e.chkIdx + 1 }
        req := (e.partitionInDisk.GetChunk e.partitionIdx e.chkIdx req).1
        err := none
        trace := enterTrace e ++
          [Event.numChunks e.partitionIdx, Event.getChunk e.partitionIdx e.chkIdx] } := by
  have hn1 : (entered e).partitionInDisk.NumChunks (entered e).partitionIdx = .ok n := hn
  have hc1 : ¬ n ≤ (entered e).chkIdx := not_le.mpr hc
  have hg1 : ((entered e).partitionInDisk.GetChunk (entered e).partitionIdx
      (entered e).chkIdx req).2 = none := hg
  simp only [Next, enterPass_consistent e h, readChunk, hn1, ge_iff_le, hc1, if_false]
  rw [hg1]
  rfl

theorem fetched_append (a b : List Event) : fetched (a ++ b) = fetched a ++ fetched b := by
  induction a with
  | nil => rfl
  | cons x t ih => cases x <;> simp [fetched, ih]

theorem fetched_enterTrace {β : Type} (e : PartitionerExec β) :
    fetched (enterTrace e) = [] := by
  unfold enterTrace; split <;> rfl

theorem consistent_entered {β : Type} (e : PartitionerExec β) (c : Int) :
    BarrierConsistent { entered e with chkIdx := c } := by
  simp [BarrierConsistent, entered]

/-- A pass over a store that holds `c + m` chunks, started at index `c`. -/
theorem runNext_pass {β : Type} (st : PartitionInDisk) (m : Nat) :
    ∀ (e : PartitionerExec β) (reqs : List Chunk),
      BarrierConsistent e →
      st.NumChunks e.partitionIdx = .ok (e.chkIdx + m) →
      (∀ i req, (st.GetChunk e.partitionIdx i req).2 = none) →
      reqs.length = m + 1 →
      ∃ rs, runNext e (reqs.map (fun q => (st, q))) = .ok rs ∧
        rs.map (fun r => (r.err, fetched r.trace)) =
          (List.range m).map (fun (k : Nat) => (none, [(e.partitionIdx, e.chkIdx + (k : Int))]))
            ++ [(none, [])] ∧
        (∀ (k : Nat) (q : Chunk) (r : NextResult β), k < m → reqs[k]? = some q →
          rs[k]? = some r → r.req = (st.GetChunk e.partitionIdx (e.chkIdx + (k : Int)) q).1) ∧
        (∀ r, rs[m]? = some r → r.exec.chkIdx = e.chkIdx + m ∧ r.exec.prepared = false ∧
          r.exec.partitionWaitGroup.counter = 0 ∧ r.exec.partitionIdx = e.partitionIdx) := by
  induction m with
  | zero =>
    intro e reqs hcons hnum _ hlen
    match reqs, hlen with
    | [q], _ =>
      have hc : BarrierConsistent { e with partitionInDisk := st } := hcons
      have hstep := Next_exhausted { e with partitionInDisk := st } q e.chkIdx hc
        (by simpa using hnum) (le_refl _)
      refine ⟨_, by (simp [runNext, hstep]; rfl), ?_, ?_, ?_⟩
      · simp [fetched_append, fetched_enterTrace, fetched]
      · intro k q r hk; omega
      · intro r hr
        simp at hr
        subst hr
        simp
  | succ m ih =>
    intro e reqs hcons hnum hget hlen
    match reqs, hlen with
    | q :: reqs, hlen =>
      have hc : BarrierConsistent { e with partitionInDisk := st } := hcons
      have hstep := Next_getChunk_ok { e with partitionInDisk := st } q (e.chkIdx + (m + 1 : Nat)) hc
        hnum (by simp) (hget _ _)
      have hlen1 : reqs.length = m + 1 := by simpa using hlen
      obtain ⟨rs, hrun, hsum, hreq, hlast⟩ :=
        ih { entered { e with partitionInDisk := st } with chkIdx := e.chkIdx + 1 } reqs
          (consistent_entered _ _)
          (by simp [entered]; rw [hnum]; congr 1; omega)
          (by intro i r; exact hget i r) hlen1
      refine ⟨_, by (simp [runNext, hstep, hrun]; rfl), ?_, ?_, ?_⟩
      · simp only [List.map_cons, hsum, List.range_succ_eq_map, List.map_map]
        simp [fetched_append, fetched_enterTrace, fetched, entered, Function.comp_def]
        intro a _
        omega
      · intro k q1 r hk hq hr
        cases k with
        | zero =>
          simp at hq hr
          subst hq; subst hr
          simp
        | succ k =>
          simp at hq hr
          have := hreq k q1 r (by omega) hq hr
          have hk1 : e.chkIdx + 1 + (k : Int) = e.chkIdx + ((k + 1 : Nat) : Int) := by omega
          rw [this]
          simp only [entered, hk1]
      · intro r hr
        simp at hr
        have := hlast r hr
        simp [entered] at this
        refine ⟨?_, this.2.1, this.2.2.1, this.2.2.2⟩
        rw [this.1]; omega

theorem Open_ok {β : Type} (baseOpen : β → β × Option Error) (e : PartitionerExec β)
    (h : (Open baseOpen e).err = none) :
    (Open baseOpen e).exec =
      { e with baseExecutor := (baseOpen e.baseExecutor).1, prepared := false
               partitionWaitGroup := {} } := by
  unfold Open at h ⊢
  split at h
  · simp at h
  · rename_i hb
    simp [hb]

theorem consistent_Open {β : Type} (baseOpen : β → β × Option Error)
    (e : PartitionerExec β) (h : (Open baseOpen e).err = none) :
    BarrierConsistent (Open baseOpen e).exec := by
  rw [Open_ok baseOpen e h]
  simp [BarrierConsistent]

theorem mem_enterTrace {β : Type} (e : PartitionerExec β) (d b : Int)
    (h : Event.wgAdd d b ∈ enterTrace e) : d = 1 ∧ b = 0 := by
  unfold enterTrace at h
  split at h <;> simp at h
  exact h

/-- The four ways a `Next` call on a consistent cursor can go. -/
theorem Next_consistent_step {β : Type} (e : PartitionerExec β) (req : Chunk)
    (h : BarrierConsistent e) :
    ∃ r, Next e req = .ok r ∧ BarrierConsistent r.exec ∧
      (∀ d b, Event.wgAdd d b ∈ r.trace → 0 ≤ b + d ∧ (d = -1 → b = 1)) ∧
      (r.endOfPartition → r.exec.partitionWaitGroup.counter = 0) := by
  cases hn : e.partitionInDisk.NumChunks e.partitionIdx with
  | error err =>
    refine ⟨_, Next_numChunks_error e req err h hn, ?_, ?_, ?_⟩
    · simp [BarrierConsistent, entered]
    · intro d b hm
      simp at hm
      obtain ⟨rfl, rfl⟩ := mem_enterTrace e d b hm
      simp
    · intro heof
      simp [NextResult.endOfPartition, errorsTrace] at heof
  | ok n =>
    by_cases hc : n ≤ e.chkIdx
    · refine ⟨_, Next_exhausted e req n h hn hc, ?_, ?_, ?_⟩
      · simp [BarrierConsistent]
      · intro d b hm
        simp at hm
        rcases hm with hm | hm
        · obtain ⟨rfl, rfl⟩ := mem_enterTrace e d b hm
          simp
        · obtain ⟨rfl, rfl⟩ := hm
          simp
      · intro _; rfl
    · have hlt : e.chkIdx < n := not_le.mp hc
      cases hg : (e.partitionInDisk.GetChunk e.partitionIdx e.chkIdx req).2 with
      | some err =>
        refine ⟨_, Next_getChunk_error e req n err h hn hlt hg, ?_, ?_, ?_⟩
        · simp [BarrierConsistent, entered]
        · intro d b hm
          simp at hm
          obtain ⟨rfl, rfl⟩ := mem_enterTrace e d b hm
          simp
        · intro heof
          simp [NextResult.endOfPartition, errorsTrace] at heof
      | none =>
        refine ⟨_, Next_getChunk_ok e req n h hn hlt hg, ?_, ?_, ?_⟩
        · simp [BarrierConsistent, entered]
        · intro d b hm
          simp at hm
          obtain ⟨rfl, rfl⟩ := mem_enterTrace e d b hm
          simp
        · intro heof
          simp [NextResult.endOfPartition, fetched_append, fetched_enterTrace, fetched] at heof

/-- A property that every `Next` call on a consistent cursor establishes holds
for every call of a run, and no call of the run panics. -/
theorem runNext_forall {β : Type} (P : NextResult β → Prop)
    (hP : ∀ (e : PartitionerExec β) (req : Chunk), BarrierConsistent e →
      ∃ r, Next e req = .ok r ∧ BarrierConsistent r.exec ∧ P r)
    (calls : List (PartitionInDisk × Chunk)) :
    ∀ e : PartitionerExec β, BarrierConsistent e →
      ∃ rs, runNext e calls = .ok rs ∧ rs.length = calls.length ∧ ∀ r ∈ rs, P r := by
  induction calls with
  | nil => intro e _; exact ⟨[], rfl, rfl, by simp⟩
  | cons c calls ih =>
    intro e he
    obtain ⟨st, req⟩ := c
    obtain ⟨r, hr, hcr, hpr⟩ := hP { e with partitionInDisk := st } req he
    obtain ⟨rs, hrs, hlen, hall⟩ := ih r.exec hcr
    refine ⟨r :: rs, by simp [runNext, hr, hrs], by simp [hlen], ?_⟩
    intro x hx
    rcases List.mem_cons.mp hx with rfl | hx
    · exact hpr
    · exact hall x hx

/-! ## The pass -/

/-- C1. After a successful `Open` with `chkIdx = 0`, over a store that reports
the constant chunk count `N` for `partitionIdx` and never fails, `N + 1` calls
of `Next` all return: the results, call by call, are no error and the single
fetch `GetChunk(partitionIdx, k)` for `k = 0 .. N-1`, followed by no error and
no fetch at all; the buffer of call `k < N` holds what that `GetChunk` put into
it. -/
theorem full_pass_in_index_order {β : Type} (baseOpen : β → β × Option Error)
    (e0 : PartitionerExec β) (st : PartitionInDisk) (N : Nat) (reqs : List Chunk)
    (hopen : (Open baseOpen e0).err = none)
    (hidx : e0.chkIdx = 0)
    (hnum : st.NumChunks e0.partitionIdx = .ok (N : Int))
    (hget : ∀ i req, (st.GetChunk e0.partitionIdx i req).2 = none)
    (hlen : reqs.length = N + 1) :
    ∃ rs, runNext (Open baseOpen e0).exec (reqs.map (fun q => (st, q))) = .ok rs ∧
      rs.map (fun r => (r.err, fetched r.trace)) =
        (List.range N).map (fun (k : Nat) => (none, [(e0.partitionIdx, (k : Int))]))
          ++ [(none, [])] ∧
      (∀ (k : Nat) (q : Chunk) (r : NextResult β), k < N → reqs[k]? = some q →
        rs[k]? = some r → r.req = (st.GetChunk e0.partitionIdx (k : Int) q).1) := by
  have hcons := consistent_Open baseOpen e0 hopen
  have hex := Open_ok baseOpen e0 hopen
  have hp : (Open baseOpen e0).exec.partitionIdx = e0.partitionIdx := by rw [hex]
  have hc : (Open baseOpen e0).exec.chkIdx = 0 := by rw [hex]; exact hidx
  obtain ⟨rs, hrun, hsum, hreq, _⟩ :=
    runNext_pass st N (Open baseOpen e0).exec reqs hcons
      (by rw [hp, hc]; simpa using hnum) (by rw [hp]; exact hget) hlen
  refine ⟨rs, hrun, ?_, ?_⟩
  · rw [hsum, hp, hc]; simp
  · intro k q r hk hq hr
    have := hreq k q r hk hq hr
    rw [hp, hc] at this
    simpa using this

theorem full_pass_in_index_order_witness :
    (Open baseOk (newExec (constStore 3) 4)).err = none ∧
    (newExec (constStore 3) 4).chkIdx = 0 ∧
    (constStore 3).NumChunks (newExec (constStore 3) 4).partitionIdx = .ok ((3 : Nat) : Int) ∧
    (∀ i req, ((constStore 3).GetChunk (newExec (constStore 3) 4).partitionIdx i req).2 = none) ∧
    ∃ rs, runNext (Open baseOk (newExec (constStore 3) 4)).exec
        ([emptyChunk, emptyChunk, emptyChunk, emptyChunk].map (fun q => (constStore 3, q)))
        = .ok rs ∧
      rs.map (fun r => (r.err, fetched r.trace)) =
        (List.range 3).map
          (fun (k : Nat) => (none, [((newExec (constStore 3) 4).partitionIdx, (k : Int))]))
          ++ [(none, [])] ∧
      (∀ (k : Nat) (q : Chunk) (r : NextResult Nat), k < 3 →
        [emptyChunk, emptyChunk, emptyChunk, emptyChunk][k]? = some q →
        rs[k]? = some r →
        r.req = ((constStore 3).GetChunk (newExec (constStore 3) 4).partitionIdx (k : Int) q).1) :=
  ⟨rfl, rfl, rfl, fun _ _ => rfl,
    full_pass_in_index_order baseOk (newExec (constStore 3) 4) (constStore 3) 3
      [emptyChunk, emptyChunk, emptyChunk, emptyChunk] rfl rfl rfl (fun _ _ => rfl) rfl⟩

/-- C2, as the claim states it, fails: over a store with one chunk, the call of
`Next` that signals the end of the partition leaves `chkIdx` at `1`, and the
call after it fetches nothing instead of chunk `0`. -/
theorem no_reset_on_exhaustion_counterexample :
    (runNext (Open baseOk (newExec (constStore 1) 0)).exec
        [(constStore 1, emptyChunk), (constStore 1, emptyChunk), (constStore 1, emptyChunk)]).map
      (List.map (fun r => (r.exec.chkIdx, r.err, fetched r.trace)))
      = .ok [(1, none, [(0, 0)]), (1, none, []), (1, none, [])] := by
  rfl

/-- C2, amended. A call of `Next` that finds `chkIdx` at or beyond the chunk
count signals the end of the partition, sets `prepared` to false and leaves
`chkIdx` as it is; the call that follows, over a store reporting the same count,
signals the end of the partition again and fetches nothing.  Once `chkIdx` has
been put back to `0` from outside `Next`, a pass over a store with `N` chunks
that never fails yields the chunks `0 .. N-1` in order again. -/
theorem exhaustion_keeps_chkIdx {β : Type} (e : PartitionerExec β)
    (st : PartitionInDisk) (n : Int) (req req2 : Chunk)
    (hcons : BarrierConsistent e)
    (hnum : st.NumChunks e.partitionIdx = .ok n) (hc : n ≤ e.chkIdx) :
    ∃ r r2, runNext e [(st, req), (st, req2)] = .ok [r, r2] ∧
      r.endOfPartition ∧ r.exec.chkIdx = e.chkIdx ∧ r.exec.prepared = false ∧
      r2.endOfPartition ∧ r2.exec.chkIdx = e.chkIdx ∧ r2.exec.prepared = false ∧
      ∀ (N : Nat) (reqs : List Chunk), n = (N : Int) →
        (∀ i q, (st.GetChunk e.partitionIdx i q).2 = none) → reqs.length = N + 1 →
        ∃ rs, runNext { r.exec with chkIdx := 0 } (reqs.map (fun q => (st, q))) = .ok rs ∧
          rs.map (fun x => (x.err, fetched x.trace)) =
            (List.range N).map (fun (k : Nat) => (none, [(e.partitionIdx, (k : Int))]))
              ++ [(none, [])] := by
  have hc0 : BarrierConsistent { e with partitionInDisk := st } := hcons
  have h1 := Next_exhausted { e with partitionInDisk := st } req n hc0 hnum hc
  have hc1 : BarrierConsistent
      { e with partitionInDisk := st, partitionWaitGroup := { counter := 0 }
               prepared := false } := by
    simp [BarrierConsistent]
  have h2 := Next_exhausted
    { e with partitionInDisk := st, partitionWaitGroup := { counter := 0 }, prepared := false }
    req2 n hc1 hnum hc
  refine ⟨_, _, by (simp [runNext, h1, h2]; exact ⟨rfl, rfl⟩), ?_, rfl, rfl, ?_, rfl, rfl, ?_⟩
  · simp [NextResult.endOfPartition, fetched_append, fetched_enterTrace, fetched]
  · simp [NextResult.endOfPartition, fetched_append, fetched_enterTrace, fetched]
  · intro N reqs hN hget hlen
    obtain ⟨rs, hrun, hsum, _, _⟩ :=
      runNext_pass st N
        { e with partitionInDisk := st, partitionWaitGroup := { counter := 0 }
                 prepared := false, chkIdx := 0 } reqs
        (by simp [BarrierConsistent]) (by simpa [hN] using hnum) hget hlen
    exact ⟨rs, hrun, by simpa using hsum⟩

theorem exhaustion_keeps_chkIdx_witness :
    BarrierConsistent exhaustedExec ∧
    (constStore 2).NumChunks exhaustedExec.partitionIdx = .ok 2 ∧
    (2 : Int) ≤ exhaustedExec.chkIdx ∧
    ∃ r r2, runNext exhaustedExec
        [(constStore 2, emptyChunk), (constStore 2, emptyChunk)] = .ok [r, r2] ∧
      r.endOfPartition ∧ r.exec.chkIdx = exhaustedExec.chkIdx ∧
      r.exec.prepared = false ∧
      r2.endOfPartition ∧ r2.exec.chkIdx = exhaustedExec.chkIdx ∧
      r2.exec.prepared = false ∧
      ∀ (N : Nat) (reqs : List Chunk), (2 : Int) = (N : Int) →
        (∀ i q, ((constStore 2).GetChunk exhaustedExec.partitionIdx i q).2 = none) →
        reqs.length = N + 1 →
        ∃ rs, runNext { r.exec with chkIdx := 0 } (reqs.map (fun q => (constStore 2, q)))
            = .ok rs ∧
          rs.map (fun x => (x.err, fetched x.trace)) =
            (List.range N).map
              (fun (k : Nat) => (none, [(exhaustedExec.partitionIdx, (k : Int))]))
              ++ [(none, [])] :=
  ⟨by decide, rfl, by decide,
    exhaustion_keeps_chkIdx exhaustedExec (constStore 2) 2 emptyChunk emptyChunk
      (by decide) rfl (by decide)⟩

/-! ## The barrier -/

/-- C3. After a successful `Open`, any sequence of `Next` calls, each over a
store that may answer anything, runs without a panic, and in the state after
`Open` and after every call the wait group's counter is `1` when `prepared` is
true and `0` when it is false; it is never above `1`. -/
theorem barrier_matches_prepared {β : Type} (baseOpen : β → β × Option Error)
    (e0 : PartitionerExec β) (calls : List (PartitionInDisk × Chunk))
    (hopen : (Open baseOpen e0).err = none) :
    ((Open baseOpen e0).exec.partitionWaitGroup.counter =
        if (Open baseOpen e0).exec.prepared then 1 else 0) ∧
    ∃ rs, runNext (Open baseOpen e0).exec calls = .ok rs ∧ rs.length = calls.length ∧
      ∀ r ∈ rs,
        (r.exec.partitionWaitGroup.counter = if r.exec.prepared then 1 else 0) ∧
        r.exec.partitionWaitGroup.counter ≤ 1 := by
  have hcons := consistent_Open baseOpen e0 hopen
  refine ⟨hcons, ?_⟩
  refine runNext_forall
    (fun r => (r.exec.partitionWaitGroup.counter = if r.exec.prepared then 1 else 0) ∧
      r.exec.partitionWaitGroup.counter ≤ 1) ?_ calls _ hcons
  intro e req he
  obtain ⟨r, hr, hc, _⟩ := Next_consistent_step e req he
  refine ⟨r, hr, hc, hc, ?_⟩
  have hc2 : r.exec.partitionWaitGroup.counter = if r.exec.prepared then 1 else 0 := hc
  rw [hc2]
  split <;> decide

theorem barrier_matches_prepared_witness :
    (Open baseOk (newExec (constStore 2) 0)).err = none ∧
    (((Open baseOk (newExec (constStore 2) 0)).exec.partitionWaitGroup.counter =
        if (Open baseOk (newExec (constStore 2) 0)).exec.prepared then 1 else 0) ∧
    ∃ rs, runNext (Open baseOk (newExec (constStore 2) 0)).exec
        [(constStore 2, emptyChunk), (faultyStore 2 1, emptyChunk), (brokenStore, emptyChunk),
          (constStore 1, emptyChunk), (constStore 5, emptyChunk)] = .ok rs ∧
      rs.length = [(constStore 2, emptyChunk), (faultyStore 2 1, emptyChunk),
          (brokenStore, emptyChunk), (constStore 1, emptyChunk),
          (constStore 5, emptyChunk)].length ∧
      ∀ r ∈ rs,
        (r.exec.partitionWaitGroup.counter = if r.exec.prepared then 1 else 0) ∧
        r.exec.partitionWaitGroup.counter ≤ 1) :=
  ⟨rfl, barrier_matches_prepared baseOk (newExec (constStore 2) 0)
    [(constStore 2, emptyChunk), (faultyStore 2 1, emptyChunk), (brokenStore, emptyChunk),
      (constStore 1, emptyChunk), (constStore 5, emptyChunk)] rfl⟩

/-- C4. After a successful `Open`, any sequence of `Next` calls runs without a
panic; every `Add(delta)` on the wait group leaves a counter that is not
negative, every `Done` (that is `Add(-1)`) is issued when the counter is `1`,
the counter is never negative after a call, and it is `0` right after every
call that signals the end of the partition. -/
theorem barrier_balanced {β : Type} (baseOpen : β → β × Option Error)
    (e0 : PartitionerExec β) (calls : List (PartitionInDisk × Chunk))
    (hopen : (Open baseOpen e0).err = none) :
    ∃ rs, runNext (Open baseOpen e0).exec calls = .ok rs ∧ rs.length = calls.length ∧
      ∀ r ∈ rs,
        (∀ d b, Event.wgAdd d b ∈ r.trace → 0 ≤ b + d ∧ (d = -1 → 1 ≤ b)) ∧
        0 ≤ r.exec.partitionWaitGroup.counter ∧
        (r.endOfPartition → r.exec.partitionWaitGroup.counter = 0) := by
  have hcons := consistent_Open baseOpen e0 hopen
  refine runNext_forall
    (fun r => (∀ d b, Event.wgAdd d b ∈ r.trace → 0 ≤ b + d ∧ (d = -1 → 1 ≤ b)) ∧
        0 ≤ r.exec.partitionWaitGroup.counter ∧
        (r.endOfPartition → r.exec.partitionWaitGroup.counter = 0)) ?_ calls _ hcons
  intro e req he
  obtain ⟨r, hr, hc, hwg, heof⟩ := Next_consistent_step e req he
  refine ⟨r, hr, hc, ?_, ?_, heof⟩
  · intro d b hm
    obtain ⟨h1, h2⟩ := hwg d b hm
    exact ⟨h1, fun hd => by rw [h2 hd]⟩
  · have hc2 : r.exec.partitionWaitGroup.counter = if r.exec.prepared then 1 else 0 := hc
    rw [hc2]
    split <;> decide

theorem barrier_balanced_witness :
    (Open baseOk (newExec (constStore 3) 0)).err = none ∧
    ∃ rs, runNext (Open baseOk (newExec (constStore 3) 0)).exec
        [(constStore 3, emptyChunk), (constStore 3, emptyChunk), (constStore 3, emptyChunk),
          (constStore 3, emptyChunk)] = .ok rs ∧
      rs.length = [(constStore 3, emptyChunk), (constStore 3, emptyChunk),
          (constStore 3, emptyChunk), (constStore 3, emptyChunk)].length ∧
      ∀ r ∈ rs,
        (∀ d b, Event.wgAdd d b ∈ r.trace → 0 ≤ b + d ∧ (d = -1 → 1 ≤ b)) ∧
        0 ≤ r.exec.partitionWaitGroup.counter ∧
        (r.endOfPartition → r.exec.partitionWaitGroup.counter = 0) :=
  ⟨rfl, barrier_balanced baseOk (newExec (constStore 3) 0)
    [(constStore 3, emptyChunk), (constStore 3, emptyChunk), (constStore 3, emptyChunk),
      (constStore 3, emptyChunk)] rfl⟩

theorem enterPass_fields {β : Type} (e e1 : PartitionerExec β) (t1 : List Event)
    (h : enterPass e = .ok (e1, t1)) :
    e1.prepared = true ∧ e1.chkIdx = e.chkIdx ∧ e1.partitionIdx = e.partitionIdx ∧
      e1.partitionInDisk = e.partitionInDisk ∧ e1.baseExecutor = e.baseExecutor := by
  unfold enterPass at h
  split at h
  · rename_i hp
    simp at h
    obtain ⟨rfl, _⟩ := h
    exact ⟨hp, rfl, rfl, rfl, rfl⟩
  · split at h
    · simp at h
    · simp at h
      obtain ⟨rfl, _⟩ := h
      exact ⟨rfl, rfl, rfl, rfl, rfl⟩

/-- A `Next` call that returns an error leaves the cursor as `enterPass` left
it. -/
theorem Next_error_exec {β : Type} (e : PartitionerExec β) (req : Chunk)
    (r : NextResult β) (h : Next e req = .ok r) (herr : r.err ≠ none) :
    ∃ t1, enterPass e = .ok (r.exec, t1) := by
  unfold Next at h
  split at h
  · simp at h
  · rename_i e1 t1 hp
    refine ⟨t1, ?_⟩
    unfold readChunk at h
    split at h
    · simp at h; subst h; exact hp
    · split at h
      · split at h
        · simp at h
        · simp at h; subst h; simp at herr
      · split at h
        · simp at h; subst h; exact hp
        · simp at h; subst h; simp at herr

/-- The increment of `chkIdx` stays within the chunk count the store reported,
so it cannot leave the range of a Go `int`. -/
theorem Next_chkIdx_le {β : Type} (e : PartitionerExec β) (req : Chunk)
    (r : NextResult β) (h : Next e req = .ok r) (hne : r.exec.chkIdx ≠ e.chkIdx) :
    ∃ n, e.partitionInDisk.NumChunks e.partitionIdx = .ok n ∧
      r.exec.chkIdx = e.chkIdx + 1 ∧ r.exec.chkIdx ≤ n := by
  unfold Next at h
  split at h
  · simp at h
  · rename_i e1 t1 hp
    obtain ⟨_, hc, hi, hs, _⟩ := enterPass_fields e e1 t1 hp
    unfold readChunk at h
    split at h
    · simp at h; subst h; exact absurd hc hne
    · rename_i n hn
      split at h
      · split at h
        · simp at h
        · simp at h; subst h; exact absurd hc hne
      · rename_i hlt
        split at h
        · simp at h; subst h; exact absurd hc hne
        · simp at h; subst h
          refine ⟨n, by rw [← hs, ← hi]; exact hn, by simp [hc], ?_⟩
          simp at hlt ⊢
          omega

/-! ## Errors -/

/-- C5. On a cursor whose barrier is consistent, `Next` returns, and it returns
an error exactly when the store fails: when `NumChunks` fails, or when
`chkIdx` is below the count and `GetChunk` fails.  The error is then the
store's own error with a stack trace attached, and at the end of the partition
the error is `nil`. -/
theorem Next_error_iff_store_fails {β : Type} (e : PartitionerExec β) (req : Chunk)
    (h : BarrierConsistent e) :
    ∃ r, Next e req = .ok r ∧
      (r.err ≠ none ↔
        (∃ err, e.partitionInDisk.NumChunks e.partitionIdx = .error err) ∨
        (∃ n err, e.partitionInDisk.NumChunks e.partitionIdx = .ok n ∧ e.chkIdx < n ∧
          (e.partitionInDisk.GetChunk e.partitionIdx e.chkIdx req).2 = some err)) ∧
      (∀ err, e.partitionInDisk.NumChunks e.partitionIdx = .error err →
        r.err = some { err with hasStack := true }) ∧
      (∀ n err, e.partitionInDisk.NumChunks e.partitionIdx = .ok n → e.chkIdx < n →
        (e.partitionInDisk.GetChunk e.partitionIdx e.chkIdx req).2 = some err →
        r.err = some { err with hasStack := true }) ∧
      (∀ n, e.partitionInDisk.NumChunks e.partitionIdx = .ok n → n ≤ e.chkIdx →
        r.err = none) := by
  cases hn : e.partitionInDisk.NumChunks e.partitionIdx with
  | error err =>
    refine ⟨_, Next_numChunks_error e req err h hn, ?_, ?_, ?_, ?_⟩
    · simp [errorsTrace]
    · intro err1 h1
      cases h1
      rfl
    · intro n err1 h1; cases h1
    · intro n h1; cases h1
  | ok n =>
    by_cases hc : n ≤ e.chkIdx
    · refine ⟨_, Next_exhausted e req n h hn hc, ?_, ?_, ?_, ?_⟩
      · simp
        intro hlt _ _
        omega
      · intro err1 h1; cases h1
      · intro m err1 h1 hlt
        cases h1
        omega
      · intro _ _ _; rfl
    · have hlt : e.chkIdx < n := not_le.mp hc
      cases hg : (e.partitionInDisk.GetChunk e.partitionIdx e.chkIdx req).2 with
      | some err =>
        refine ⟨_, Next_getChunk_error e req n err h hn hlt hg, ?_, ?_, ?_, ?_⟩
        · simp [errorsTrace, hlt]
        · intro err1 h1; cases h1
        · intro m err1 _ _ h3
          cases h3
          rfl
        · intro m h1 h2
          cases h1
          omega
      | none =>
        refine ⟨_, Next_getChunk_ok e req n h hn hlt hg, ?_, ?_, ?_, ?_⟩
        · simp
        · intro err1 h1; cases h1
        · intro m err1 _ _ h3
          cases h3
        · intro m h1 h2
          cases h1
          omega

theorem Next_error_iff_store_fails_witness :
    BarrierConsistent (newExec (faultyStore 2 0) 3) ∧
    ∃ r, Next (newExec (faultyStore 2 0) 3) emptyChunk = .ok r ∧
      (r.err ≠ none ↔
        (∃ err, (newExec (faultyStore 2 0) 3).partitionInDisk.NumChunks
          (newExec (faultyStore 2 0) 3).partitionIdx = .error err) ∨
        (∃ n err, (newExec (faultyStore 2 0) 3).partitionInDisk.NumChunks
            (newExec (faultyStore 2 0) 3).partitionIdx = .ok n ∧
          (newExec (faultyStore 2 0) 3).chkIdx < n ∧
          ((newExec (faultyStore 2 0) 3).partitionInDisk.GetChunk
            (newExec (faultyStore 2 0) 3).partitionIdx
            (newExec (faultyStore 2 0) 3).chkIdx emptyChunk).2 = some err)) ∧
      (∀ err, (newExec (faultyStore 2 0) 3).partitionInDisk.NumChunks
          (newExec (faultyStore 2 0) 3).partitionIdx = .error err →
        r.err = some { err with hasStack := true }) ∧
      (∀ n err, (newExec (faultyStore 2 0) 3).partitionInDisk.NumChunks
          (newExec (faultyStore 2 0) 3).partitionIdx = .ok n →
        (newExec (faultyStore 2 0) 3).chkIdx < n →
        ((newExec (faultyStore 2 0) 3).partitionInDisk.GetChunk
          (newExec (faultyStore 2 0) 3).partitionIdx
          (newExec (faultyStore 2 0) 3).chkIdx emptyChunk).2 = some err →
        r.err = some { err with hasStack := true }) ∧
      (∀ n, (newExec (faultyStore 2 0) 3).partitionInDisk.NumChunks
          (newExec (faultyStore 2 0) 3).partitionIdx = .ok n →
        n ≤ (newExec (faultyStore 2 0) 3).chkIdx → r.err = none) :=
  ⟨by decide, Next_error_iff_store_fails (newExec (faultyStore 2 0) 3) emptyChunk (by decide)⟩

/-- C6. Whenever a `Next` call returns an error, `chkIdx` is what it was before
the call (and `prepared` is true); the next call, over a store that reports a
count above that index and whose `GetChunk` succeeds there, returns no error,
makes exactly the calls `NumChunks(partitionIdx)` and
`GetChunk(partitionIdx, chkIdx)` at that same index, and only then moves to
the following index. -/
theorem error_keeps_chkIdx {β : Type} (e : PartitionerExec β) (req : Chunk)
    (r : NextResult β) (h : Next e req = .ok r) (herr : r.err ≠ none) :
    r.exec.chkIdx = e.chkIdx ∧ r.exec.prepared = true ∧
    ∀ (st : PartitionInDisk) (n : Int) (req2 : Chunk),
      st.NumChunks e.partitionIdx = .ok n → e.chkIdx < n →
      (st.GetChunk e.partitionIdx e.chkIdx req2).2 = none →
      ∃ r2, Next { r.exec with partitionInDisk := st } req2 = .ok r2 ∧ r2.err = none ∧
        r2.trace = [Event.numChunks e.partitionIdx, Event.getChunk e.partitionIdx e.chkIdx] ∧
        r2.req = (st.GetChunk e.partitionIdx e.chkIdx req2).1 ∧
        r2.exec.chkIdx = e.chkIdx + 1 := by
  obtain ⟨t1, hp⟩ := Next_error_exec e req r h herr
  obtain ⟨hprep, hc, hi, _, _⟩ := enterPass_fields e r.exec t1 hp
  refine ⟨hc, hprep, ?_⟩
  intro st n req2 hnum hlt hget
  have hnot : ¬ n ≤ r.exec.chkIdx := by rw [hc]; exact not_le.mpr hlt
  refine ⟨{ exec := { r.exec with partitionInDisk := st, chkIdx := r.exec.chkIdx + 1 }
            req := (st.GetChunk r.exec.partitionIdx r.exec.chkIdx req2).1
            err := none
            trace := [Event.numChunks r.exec.partitionIdx,
              Event.getChunk r.exec.partitionIdx r.exec.chkIdx] }, ?_, rfl, ?_, ?_, ?_⟩
  · rw [← hi] at hnum hget
    rw [← hc] at hget
    simp only [Next, enterPass, hprep, if_true, readChunk, hnum, ge_iff_le, hnot, if_false]
    rw [hget]
    rfl
  · simp [hi, hc]
  · simp [hi, hc]
  · simp [hc]

theorem error_keeps_chkIdx_witness :
    ∃ r1 r,
      Next (newExec (constStore 2) 0) emptyChunk = .ok r1 ∧
      Next { r1.exec with partitionInDisk := faultyStore 2 1 } emptyChunk = .ok r ∧
      r.err ≠ none ∧
      (r.exec.chkIdx = 1 ∧ r.exec.prepared = true ∧
      ∀ (st : PartitionInDisk) (n : Int) (req2 : Chunk),
        st.NumChunks 0 = .ok n → 1 < n →
        (st.GetChunk 0 1 req2).2 = none →
        ∃ r2, Next { r.exec with partitionInDisk := st } req2 = .ok r2 ∧ r2.err = none ∧
          r2.trace = [Event.numChunks 0, Event.getChunk 0 1] ∧
          r2.req = (st.GetChunk 0 1 req2).1 ∧
          r2.exec.chkIdx = 1 + 1) :=
  ⟨_, _, rfl, rfl, by decide,
    error_keeps_chkIdx
      { newExec (faultyStore 2 1) 0 with
        chkIdx := 1, prepared := true, partitionWaitGroup := { counter := 1 } }
      emptyChunk _ rfl (by decide)⟩

/-! ## Open and Close -/

/-- C7. When `baseExecutor.Open` succeeds, `Open` returns `nil`, sets `prepared`
to false, replaces the wait group by a fresh one with counter `0`, and leaves
`chkIdx`, `partitionIdx` and `partitionInDisk` as they were, whatever the
cursor held before.  When `baseExecutor.Open` fails, `Open` returns that very
error and changes none of `prepared`, the wait group, `chkIdx`, `partitionIdx`
and `partitionInDisk`. -/
theorem Open_effect {β : Type} (baseOpen : β → β × Option Error)
    (e : PartitionerExec β) :
    ((baseOpen e.baseExecutor).2 = none →
      (Open baseOpen e).err = none ∧
      (Open baseOpen e).exec.prepared = false ∧
      (Open baseOpen e).exec.partitionWaitGroup = {} ∧
      (Open baseOpen e).exec.partitionWaitGroup.counter = 0 ∧
      (Open baseOpen e).exec.chkIdx = e.chkIdx ∧
      (Open baseOpen e).exec.partitionIdx = e.partitionIdx ∧
      (Open baseOpen e).exec.partitionInDisk = e.partitionInDisk) ∧
    (∀ err, (baseOpen e.baseExecutor).2 = some err →
      (Open baseOpen e).err = some err ∧
      (Open baseOpen e).exec.prepared = e.prepared ∧
      (Open baseOpen e).exec.partitionWaitGroup = e.partitionWaitGroup ∧
      (Open baseOpen e).exec.chkIdx = e.chkIdx ∧
      (Open baseOpen e).exec.partitionIdx = e.partitionIdx ∧
      (Open baseOpen e).exec.partitionInDisk = e.partitionInDisk) := by
  constructor
  · intro h
    simp [Open, h]
  · intro err h
    simp [Open, h]

theorem Open_effect_witness :
    ((Open baseOk { exhaustedExec with prepared := true, partitionWaitGroup := { counter := 1 } }).err
        = none ∧
      (Open baseOk { exhaustedExec with prepared := true, partitionWaitGroup := { counter := 1 } }).exec.prepared
        = false ∧
      (Open baseOk { exhaustedExec with prepared := true, partitionWaitGroup := { counter := 1 } }).exec.partitionWaitGroup
        = {} ∧
      (Open baseOk { exhaustedExec with prepared := true, partitionWaitGroup := { counter := 1 } }).exec.partitionWaitGroup.counter
        = 0 ∧
      (Open baseOk { exhaustedExec with prepared := true, partitionWaitGroup := { counter := 1 } }).exec.chkIdx
        = 2 ∧
      (Open baseOk { exhaustedExec with prepared := true, partitionWaitGroup := { counter := 1 } }).exec.partitionIdx
        = 0 ∧
      (Open baseOk { exhaustedExec with prepared := true, partitionWaitGroup := { counter := 1 } }).exec.partitionInDisk
        = exhaustedExec.partitionInDisk) ∧
    ((Open baseFail { exhaustedExec with prepared := true, partitionWaitGroup := { counter := 1 } }).err
        = some { cause := 5, hasStack := false } ∧
      (Open baseFail { exhaustedExec with prepared := true, partitionWaitGroup := { counter := 1 } }).exec.prepared
        = true ∧
      (Open baseFail { exhaustedExec with prepared := true, partitionWaitGroup := { counter := 1 } }).exec.partitionWaitGroup
        = { counter := 1 } ∧
      (Open baseFail { exhaustedExec with prepared := true, partitionWaitGroup := { counter := 1 } }).exec.chkIdx
        = 2 ∧
      (Open baseFail { exhaustedExec with prepared := true, partitionWaitGroup := { counter := 1 } }).exec.partitionIdx
        = 0 ∧
      (Open baseFail { exhaustedExec with prepared := true, partitionWaitGroup := { counter := 1 } }).exec.partitionInDisk
        = exhaustedExec.partitionInDisk) :=
  ⟨(Open_effect baseOk
      { exhaustedExec with prepared := true, partitionWaitGroup := { counter := 1 } }).1 rfl,
    (Open_effect baseFail
      { exhaustedExec with prepared := true, partitionWaitGroup := { counter := 1 } }).2 _ rfl⟩

theorem Close_fields {β : Type} (baseClose : β → β × Option Error)
    (e : PartitionerExec β) :
    (Close baseClose e).exec.partitionIdx = e.partitionIdx ∧
    (Close baseClose e).exec.chkIdx = e.chkIdx ∧
    (Close baseClose e).exec.partitionInDisk = e.partitionInDisk ∧
    (Close baseClose e).exec.prepared = e.prepared ∧
    (Close baseClose e).exec.partitionWaitGroup = e.partitionWaitGroup := by
  unfold Close
  split <;> simp

theorem released_Close {β : Type} (baseClose : β → β × Option Error)
    (e : PartitionerExec β) : released (Close baseClose e).trace = [e.partitionIdx] := by
  unfold Close
  split <;> simp [released]

/-- C8. The error and the calls of `Close` are the same whatever `chkIdx`,
`prepared` and the wait group hold; in every cursor state `Close` calls the
store's `Close` exactly once, for `partitionIdx`; and when that release and
`baseExecutor.Close` both succeed it returns `nil`, having called the two in
this order. -/
theorem Close_needs_no_pass {β : Type} (baseClose : β → β × Option Error)
    (e : PartitionerExec β) (c : Int) (pr : Bool) (wg : WaitGroup) :
    (Close baseClose { e with chkIdx := c, prepared := pr, partitionWaitGroup := wg }).err
        = (Close baseClose e).err ∧
    (Close baseClose { e with chkIdx := c, prepared := pr, partitionWaitGroup := wg }).trace
        = (Close baseClose e).trace ∧
    released (Close baseClose e).trace = [e.partitionIdx] ∧
    (e.partitionInDisk.Close e.partitionIdx = none → (baseClose e.baseExecutor).2 = none →
      (Close baseClose e).err = none ∧
      (Close baseClose e).trace = [Event.storeClose e.partitionIdx, Event.baseClose]) := by
  refine ⟨?_, ?_, released_Close baseClose e, ?_⟩
  · simp only [Close]
    split <;> rfl
  · simp only [Close]
    split <;> rfl
  · intro h1 h2
    simp [Close, h1, h2, errorsTrace]

theorem Close_needs_no_pass_witness :
    (Close baseOk { newExec (constStore 0) 6 with
        chkIdx := 4, prepared := true, partitionWaitGroup := { counter := 1 } }).err
        = (Close baseOk (newExec (constStore 0) 6)).err ∧
    (Close baseOk { newExec (constStore 0) 6 with
        chkIdx := 4, prepared := true, partitionWaitGroup := { counter := 1 } }).trace
        = (Close baseOk (newExec (constStore 0) 6)).trace ∧
    released (Close baseOk (newExec (constStore 0) 6)).trace = [6] ∧
    (constStore 0).Close 6 = none ∧ (baseOk 0).2 = none ∧
    (Close baseOk (newExec (constStore 0) 6)).err = none ∧
    (Close baseOk (newExec (constStore 0) 6)).trace = [Event.storeClose 6, Event.baseClose] :=
  ⟨(Close_needs_no_pass baseOk (newExec (constStore 0) 6) 4 true { counter := 1 }).1,
    (Close_needs_no_pass baseOk (newExec (constStore 0) 6) 4 true { counter := 1 }).2.1,
    (Close_needs_no_pass baseOk (newExec (constStore 0) 6) 4 true { counter := 1 }).2.2.1,
    rfl, rfl,
    (Close_needs_no_pass baseOk (newExec (constStore 0) 6) 4 true { counter := 1 }).2.2.2 rfl rfl⟩

/-- C9, as the claim states it, fails: when the store's release fails, `Close`
returns without calling `baseExecutor.Close` (the state of `baseExecutor` is
untouched), and a later `Close` calls the store's release again. -/
theorem Close_failure_counterexample :
    (Close baseOk (newExec brokenStore 0)).err = some { cause := 9, hasStack := false } ∧
    (Close baseOk (newExec brokenStore 0)).trace = [Event.storeClose 0] ∧
    (Close baseOk (newExec brokenStore 0)).exec.baseExecutor = 0 ∧
    (Close baseOk (Close baseOk (newExec brokenStore 0)).exec).trace = [Event.storeClose 0] := by
  decide

/-- C9, amended. When the store's release of the partition fails, `Close`
returns that store error as it is and returns at once: the only call it makes
is the store's `Close(partitionIdx)`, `baseExecutor.Close` is not called, and
no field of the cursor changes.  The cursor keeps no record of having been
closed: a later `Close`, whatever the store then answers, calls the store's
release for `partitionIdx` again. -/
theorem Close_store_failure {β : Type} (baseClose : β → β × Option Error)
    (e : PartitionerExec β) (err : Error)
    (h : e.partitionInDisk.Close e.partitionIdx = some err) :
    (Close baseClose e).err = some err ∧
    (Close baseClose e).trace = [Event.storeClose e.partitionIdx] ∧
    (Close baseClose e).exec.baseExecutor = e.baseExecutor ∧
    (Close baseClose e).exec.chkIdx = e.chkIdx ∧
    (Close baseClose e).exec.prepared = e.prepared ∧
    (Close baseClose e).exec.partitionWaitGroup = e.partitionWaitGroup ∧
    (Close baseClose e).exec.partitionIdx = e.partitionIdx ∧
    ∀ st : PartitionInDisk,
      released (Close baseClose { (Close baseClose e).exec with partitionInDisk := st }).trace
        = [e.partitionIdx] := by
  refine ⟨by simp [Close, h], by simp [Close, h], by simp [Close, h], by simp [Close, h],
    by simp [Close, h], by simp [Close, h], by simp [Close, h], ?_⟩
  intro st
  rw [released_Close]
  simp [Close, h]

theorem Close_store_failure_witness :
    (newExec brokenStore 3).partitionInDisk.Close (newExec brokenStore 3).partitionIdx
      = some { cause := 9, hasStack := false } ∧
    ((Close baseOk (newExec brokenStore 3)).err = some { cause := 9, hasStack := false } ∧
    (Close baseOk (newExec brokenStore 3)).trace = [Event.storeClose 3] ∧
    (Close baseOk (newExec brokenStore 3)).exec.baseExecutor = 0 ∧
    (Close baseOk (newExec brokenStore 3)).exec.chkIdx = 0 ∧
    (Close baseOk (newExec brokenStore 3)).exec.prepared = false ∧
    (Close baseOk (newExec brokenStore 3)).exec.partitionWaitGroup = {} ∧
    (Close baseOk (newExec brokenStore 3)).exec.partitionIdx = 3 ∧
    ∀ st : PartitionInDisk,
      released (Close baseOk
        { (Close baseOk (newExec brokenStore 3)).exec with partitionInDisk := st }).trace
        = [3]) :=
  ⟨rfl, Close_store_failure baseOk (newExec brokenStore 3) _ rfl⟩

theorem queried_append (a b : List Event) : queried (a ++ b) = queried a ++ queried b := by
  induction a with
  | nil => rfl
  | cons x t ih => cases x <;> simp [queried, ih]

theorem queried_enterTrace {β : Type} (e : PartitionerExec β) :
    queried (enterTrace e) = [] := by
  unfold enterTrace; split <;> rfl

/-- Every `Next` call on a consistent cursor asks the store for the chunk count
of `partitionIdx`, once. -/
theorem Next_queries_store {β : Type} (e : PartitionerExec β) (req : Chunk)
    (h : BarrierConsistent e) :
    ∃ r, Next e req = .ok r ∧ queried r.trace = [e.partitionIdx] ∧
      (∀ n, e.partitionInDisk.NumChunks e.partitionIdx = .ok n → e.chkIdx < n →
        (e.partitionInDisk.GetChunk e.partitionIdx e.chkIdx req).2 = none →
        r.err = none ∧ fetched r.trace = [(e.partitionIdx, e.chkIdx)]) := by
  cases hn : e.partitionInDisk.NumChunks e.partitionIdx with
  | error err =>
    refine ⟨_, Next_numChunks_error e req err h hn, ?_, ?_⟩
    · simp [queried_append, queried_enterTrace, queried]
    · intro n h1; cases h1
  | ok n =>
    by_cases hc : n ≤ e.chkIdx
    · refine ⟨_, Next_exhausted e req n h hn hc, ?_, ?_⟩
      · simp [queried_append, queried_enterTrace, queried]
      · intro m h1 h2
        cases h1
        omega
    · have hlt : e.chkIdx < n := not_le.mp hc
      cases hg : (e.partitionInDisk.GetChunk e.partitionIdx e.chkIdx req).2 with
      | some err =>
        refine ⟨_, Next_getChunk_error e req n err h hn hlt hg, ?_, ?_⟩
        · simp [queried_append, queried_enterTrace, queried]
        · intro m _ _ h3
          cases h3
      | none =>
        refine ⟨_, Next_getChunk_ok e req n h hn hlt hg, ?_, ?_⟩
        · simp [queried_append, queried_enterTrace, queried]
        · intro m _ _ _
          simp [fetched_append, fetched_enterTrace, fetched]

/-- C10, as the claim states it, fails: after a `Close` that returned `nil`, a
`Next` call asks the store for the chunk count, reads chunk `0` and returns no
error, and a second `Close` calls the store's release again. -/
theorem closed_is_not_terminal_counterexample :
    (Close baseOk (newExec (constStore 1) 0)).err = none ∧
    (Next (Close baseOk (newExec (constStore 1) 0)).exec emptyChunk).map
        (fun r => (r.err, r.trace, r.req))
      = .ok (none, [Event.wgAdd 1 0, Event.numChunks 0, Event.getChunk 0 0],
          { rows := [[0, 0]] }) ∧
    (Close baseOk (Close baseOk (newExec (constStore 1) 0)).exec).trace
      = [Event.storeClose 0, Event.baseClose] := by
  refine ⟨rfl, rfl, rfl⟩

/-- C10, amended. `Close` records nothing in the cursor: it leaves
`partitionIdx`, `chkIdx`, `partitionInDisk`, `prepared` and the wait group as
they were.  So for every cursor state with a consistent barrier, a `Next` call
issued after `Close` has returned does what `Next` always does: it asks the
store for the chunk count of `partitionIdx` and, when the store answers with a
count above `chkIdx` and hands out the chunk, returns no error and that chunk.
A second `Close` calls the store's release for `partitionIdx` again. -/
theorem Close_keeps_cursor_usable {β : Type} (baseClose : β → β × Option Error)
    (e : PartitionerExec β) (req : Chunk) (h : BarrierConsistent e) :
    (Close baseClose e).exec.partitionIdx = e.partitionIdx ∧
    (Close baseClose e).exec.chkIdx = e.chkIdx ∧
    (Close baseClose e).exec.partitionInDisk = e.partitionInDisk ∧
    (Close baseClose e).exec.prepared = e.prepared ∧
    (Close baseClose e).exec.partitionWaitGroup = e.partitionWaitGroup ∧
    (∃ r, Next (Close baseClose e).exec req = .ok r ∧ queried r.trace = [e.partitionIdx] ∧
      (∀ n, e.partitionInDisk.NumChunks e.partitionIdx = .ok n → e.chkIdx < n →
        (e.partitionInDisk.GetChunk e.partitionIdx e.chkIdx req).2 = none →
        r.err = none ∧ fetched r.trace = [(e.partitionIdx, e.chkIdx)])) ∧
    released (Close baseClose (Close baseClose e).exec).trace = [e.partitionIdx] := by
  obtain ⟨hi, hc, hs, hp, hw⟩ := Close_fields baseClose e
  refine ⟨hi, hc, hs, hp, hw, ?_, by rw [released_Close, hi]⟩
  have hcons : BarrierConsistent (Close baseClose e).exec := by
    unfold BarrierConsistent at h ⊢
    rw [hp, hw]; exact h
  have := Next_queries_store (Close baseClose e).exec req hcons
  rw [hi, hc, hs] at this
  exact this

theorem Close_keeps_cursor_usable_witness :
    BarrierConsistent (newExec (constStore 1) 0) ∧
    ((Close baseOk (newExec (constStore 1) 0)).exec.partitionIdx = 0 ∧
    (Close baseOk (newExec (constStore 1) 0)).exec.chkIdx = 0 ∧
    (Close baseOk (newExec (constStore 1) 0)).exec.partitionInDisk = constStore 1 ∧
    (Close baseOk (newExec (constStore 1) 0)).exec.prepared = false ∧
    (Close baseOk (newExec (constStore 1) 0)).exec.partitionWaitGroup = {} ∧
    (∃ r, Next (Close baseOk (newExec (constStore 1) 0)).exec emptyChunk = .ok r ∧
      queried r.trace = [0] ∧
      (∀ n, (constStore 1).NumChunks 0 = .ok n → 0 < n →
        ((constStore 1).GetChunk 0 0 emptyChunk).2 = none →
        r.err = none ∧ fetched r.trace = [(0, 0)])) ∧
    released (Close baseOk (Close baseOk (newExec (constStore 1) 0)).exec).trace = [0]) :=
  ⟨by decide, Close_keeps_cursor_usable baseOk (newExec (constStore 1) 0) emptyChunk (by decide)⟩

theorem enterPass_trace {β : Type} (e e1 : PartitionerExec β) (t1 : List Event)
    (h : enterPass e = .ok (e1, t1)) :
    t1 = [] ∨ t1 = [Event.wgAdd 1 e.partitionWaitGroup.counter] := by
  unfold enterPass at h
  split at h
  · simp at h
    exact Or.inl h.2
  · split at h
    · simp at h
    · simp at h
      exact Or.inr h.2.symm

/-- The shape of every `Next` call that returns, from any cursor state. -/
theorem Next_shape {β : Type} (e : PartitionerExec β) (req : Chunk)
    (r : NextResult β) (h : Next e req = .ok r) :
    ∃ e1 t1, enterPass e = .ok (e1, t1) ∧
      r.exec.partitionIdx = e.partitionIdx ∧
      ((∃ err, e.partitionInDisk.NumChunks e.partitionIdx = .error err ∧
          r.trace = t1 ++ [Event.numChunks e.partitionIdx] ∧
          r.exec.chkIdx = e.chkIdx ∧ r.err = some { err with hasStack := true }) ∨
       (∃ n, e.partitionInDisk.NumChunks e.partitionIdx = .ok n ∧ n ≤ e.chkIdx ∧
          r.trace = t1 ++ [Event.numChunks e.partitionIdx,
            Event.wgAdd (-1) e1.partitionWaitGroup.counter] ∧
          r.exec.chkIdx = e.chkIdx ∧ r.err = none ∧ r.req = req ∧
          r.exec.prepared = false) ∨
       (∃ n, e.partitionInDisk.NumChunks e.partitionIdx = .ok n ∧ e.chkIdx < n ∧
          r.trace = t1 ++ [Event.numChunks e.partitionIdx,
            Event.getChunk e.partitionIdx e.chkIdx] ∧
          r.req = (e.partitionInDisk.GetChunk e.partitionIdx e.chkIdx req).1 ∧
          ((r.exec.chkIdx = e.chkIdx ∧ r.err ≠ none) ∨
           (r.exec.chkIdx = e.chkIdx + 1 ∧ r.err = none)))) := by
  cases hp : enterPass e with
  | error p => simp [Next, hp] at h
  | ok pr =>
    obtain ⟨e1, t1⟩ := pr
    simp only [Next, hp] at h
    obtain ⟨_, hc, hi, hs, _⟩ := enterPass_fields e e1 t1 hp
    refine ⟨e1, t1, rfl, ?_⟩
    unfold readChunk at h
    rw [hs, hi, hc] at h
    split at h
    · rename_i err hn
      simp at h; subst h
      exact ⟨by simpa using hi, Or.inl ⟨err, hn, rfl, by simpa using hc, rfl⟩⟩
    · rename_i n hn
      split at h
      · rename_i hge
        split at h
        · simp at h
        · simp at h; subst h
          exact ⟨by simp [hi],
            Or.inr (Or.inl ⟨n, hn, hge, rfl, by simp [hc], rfl, rfl, rfl⟩)⟩
      · rename_i hlt
        have hlt1 : e.chkIdx < n := by simpa using hlt
        split at h
        · simp at h; subst h
          exact ⟨by simpa using hi, Or.inr (Or.inr ⟨n, hn, hlt1, rfl, rfl,
            Or.inl ⟨by simpa using hc, by simp [errorsTrace]⟩⟩)⟩
        · simp at h; subst h
          exact ⟨by simp [hi],
            Or.inr (Or.inr ⟨n, hn, hlt1, rfl, rfl, Or.inr ⟨rfl, rfl⟩⟩)⟩

theorem fetched_enterPass {β : Type} (e e1 : PartitionerExec β) (t1 : List Event)
    (h : enterPass e = .ok (e1, t1)) :
    fetched t1 = [] ∧ storeCalls t1 = [] ∧ queried t1 = [] := by
  rcases enterPass_trace e e1 t1 h with rfl | rfl <;> exact ⟨rfl, rfl, rfl⟩

theorem storeCalls_append (a b : List Event) :
    storeCalls (a ++ b) = storeCalls a ++ storeCalls b := by
  induction a with
  | nil => rfl
  | cons x t ih => cases x <;> simp [storeCalls, ih]

theorem barrierCalls_append (a b : List Event) :
    barrierCalls (a ++ b) = barrierCalls a ++ barrierCalls b := by
  induction a with
  | nil => rfl
  | cons x t ih => cases x <;> simp [barrierCalls, ih]

/-- What a `Next` call that returns does to the index and which chunk it asks
the store for, from any cursor state. -/
theorem Next_index {β : Type} (e : PartitionerExec β) (req : Chunk)
    (r : NextResult β) (h : Next e req = .ok r) :
    r.exec.partitionIdx = e.partitionIdx ∧
    (∀ p ∈ storeCalls r.trace, p = e.partitionIdx) ∧
    ((r.exec.chkIdx = e.chkIdx ∧ fetched r.trace = []) ∨
     (∃ n, e.partitionInDisk.NumChunks e.partitionIdx = .ok n ∧ e.chkIdx < n ∧
        fetched r.trace = [(e.partitionIdx, e.chkIdx)] ∧
        (r.exec.chkIdx = e.chkIdx ∨ r.exec.chkIdx = e.chkIdx + 1))) := by
  obtain ⟨e1, t1, hp, hi, hcase⟩ := Next_shape e req r h
  obtain ⟨hf, hs, _⟩ := fetched_enterPass e e1 t1 hp
  refine ⟨hi, ?_, ?_⟩
  · rcases hcase with ⟨_, _, ht, _⟩ | ⟨_, _, _, ht, _⟩ | ⟨_, _, _, ht, _⟩ <;>
      · rw [ht, storeCalls_append, hs]
        simp [storeCalls]
  · rcases hcase with ⟨_, _, ht, hc, _⟩ | ⟨_, _, _, ht, hc, _⟩ | ⟨n, hn, hlt, ht, _, hc⟩
    · exact Or.inl ⟨hc, by rw [ht, fetched_append, hf]; rfl⟩
    · exact Or.inl ⟨hc, by rw [ht, fetched_append, hf]; rfl⟩
    · refine Or.inr ⟨n, hn, hlt, by rw [ht, fetched_append, hf]; rfl, ?_⟩
      rcases hc with ⟨hc, _⟩ | ⟨hc, _⟩
      · exact Or.inl hc
      · exact Or.inr hc

theorem consistent_step {β : Type} (baseOpen baseClose : β → β × Option Error)
    (e : PartitionerExec β) (op : Op) (h : BarrierConsistent e) :
    ∃ r, step baseOpen baseClose e op = .ok r ∧ BarrierConsistent r.exec := by
  cases op with
  | callOpen =>
    refine ⟨_, rfl, ?_⟩
    cases hb : (Open baseOpen e).err with
    | none => exact consistent_Open baseOpen e hb
    | some err =>
      unfold Open at hb ⊢
      split
      · exact h
      · rename_i hn
        simp [hn] at hb
  | callNext st req =>
    have hc : BarrierConsistent { e with partitionInDisk := st } := h
    obtain ⟨r, hr, hcr, _⟩ := Next_consistent_step { e with partitionInDisk := st } req hc
    exact ⟨_, by simp [step, hr]; rfl, hcr⟩
  | callClose st =>
    refine ⟨_, rfl, ?_⟩
    obtain ⟨_, _, _, hp, hw⟩ := Close_fields baseClose { e with partitionInDisk := st }
    unfold BarrierConsistent at h ⊢
    rw [hp, hw]; exact h

/-- A run that starts with a consistent barrier never panics. -/
theorem runOps_ok {β : Type} (baseOpen baseClose : β → β × Option Error)
    (ops : List Op) : ∀ e : PartitionerExec β, BarrierConsistent e →
      ∃ rs, runOps baseOpen baseClose e ops = .ok rs ∧ rs.length = ops.length := by
  induction ops with
  | nil => intro e _; exact ⟨[], rfl, rfl⟩
  | cons op ops ih =>
    intro e he
    obtain ⟨r, hr, hc⟩ := consistent_step baseOpen baseClose e op he
    obtain ⟨rs, hrs, hlen⟩ := ih r.exec hc
    exact ⟨r :: rs, by simp [runOps, hr, hrs], by simp [hlen]⟩

/-- An invariant of the single calls, with what it gives for each call, carries
over to every run. -/
theorem runOps_forall₂ {β : Type} (baseOpen baseClose : β → β × Option Error)
    (Inv : PartitionerExec β → Prop) (Good : Op → Prop) (P : Op → CallResult β → Prop)
    (hstep : ∀ e op r, Inv e → Good op → step baseOpen baseClose e op = .ok r →
      Inv r.exec ∧ P op r)
    (ops : List Op) : ∀ e : PartitionerExec β, Inv e → (∀ op ∈ ops, Good op) →
      ∀ rs, runOps baseOpen baseClose e ops = .ok rs → List.Forall₂ P ops rs := by
  induction ops with
  | nil =>
    intro e _ _ rs h
    simp [runOps] at h
    subst h
    exact List.Forall₂.nil
  | cons op ops ih =>
    intro e he hgood rs h
    unfold runOps at h
    split at h
    · simp at h
    · rename_i r hr
      split at h
      · simp at h
      · rename_i rs1 hrs
        simp at h
        subst h
        obtain ⟨hinv, hp⟩ := hstep e op r he (hgood op (List.mem_cons_self _ _)) hr
        exact List.Forall₂.cons hp
          (ih r.exec hinv (fun o ho => hgood o (List.mem_cons_of_mem _ ho)) rs1 hrs)

theorem forall₂_right {α γ : Type} (P : γ → Prop) (l : List α) (rs : List γ)
    (h : List.Forall₂ (fun _ r => P r) l rs) : ∀ r ∈ rs, P r := by
  induction h with
  | nil => intro r hr; cases hr
  | cons hp _ ih =>
    intro r hr
    rcases List.mem_cons.mp hr with rfl | hr
    · exact hp
    · exact ih r hr

theorem Open_fields {β : Type} (baseOpen : β → β × Option Error)
    (e : PartitionerExec β) :
    (Open baseOpen e).exec.partitionIdx = e.partitionIdx ∧
    (Open baseOpen e).exec.chkIdx = e.chkIdx ∧
    (Open baseOpen e).exec.partitionInDisk = e.partitionInDisk ∧
    (Open baseOpen e).trace = [Event.baseOpen] ∧
    (e.prepared = false → e.partitionWaitGroup.counter = 0 →
      (Open baseOpen e).exec.prepared = false ∧
      (Open baseOpen e).exec.partitionWaitGroup.counter = 0) := by
  unfold Open
  split <;> simp
  intro h1 h2
  exact ⟨h1, h2⟩

theorem Close_trace {β : Type} (baseClose : β → β × Option Error)
    (e : PartitionerExec β) :
    fetched (Close baseClose e).trace = [] ∧
    storeCalls (Close baseClose e).trace = [e.partitionIdx] ∧
    barrierCalls (Close baseClose e).trace = [] := by
  unfold Close
  split <;> simp [fetched, storeCalls, barrierCalls]

/-! ## Index and partition -/

/-- C11. Over stores that report the chunk count `N` for `partitionIdx`, from a
cursor with `0 ≤ chkIdx ≤ N`, after every call of any run of `Open`, `Next`
(and `Close`) calls `0 ≤ chkIdx ≤ N` holds, and every `GetChunk` call made is
for `partitionIdx` with an index `i` such that `0 ≤ i < N`.  A run that starts
with a consistent barrier never panics, so this covers each of its calls. -/
theorem chkIdx_within_count {β : Type} (baseOpen baseClose : β → β × Option Error)
    (e : PartitionerExec β) (N : Int) (ops : List Op)
    (h0 : 0 ≤ e.chkIdx) (hN : e.chkIdx ≤ N)
    (hst : ∀ st req, Op.callNext st req ∈ ops → st.NumChunks e.partitionIdx = .ok N) :
    (∀ rs, runOps baseOpen baseClose e ops = .ok rs → ∀ r ∈ rs,
      0 ≤ r.exec.chkIdx ∧ r.exec.chkIdx ≤ N ∧
      ∀ p i, (p, i) ∈ fetched r.trace → p = e.partitionIdx ∧ 0 ≤ i ∧ i < N) ∧
    (BarrierConsistent e →
      ∃ rs, runOps baseOpen baseClose e ops = .ok rs ∧ rs.length = ops.length) := by
  refine ⟨?_, fun hc => runOps_ok baseOpen baseClose ops e hc⟩
  intro rs hrun
  have hall := runOps_forall₂ baseOpen baseClose
    (fun x => x.partitionIdx = e.partitionIdx ∧ 0 ≤ x.chkIdx ∧ x.chkIdx ≤ N)
    (fun op => ∀ st req, op = Op.callNext st req → st.NumChunks e.partitionIdx = .ok N)
    (fun _ r => 0 ≤ r.exec.chkIdx ∧ r.exec.chkIdx ≤ N ∧
      ∀ p i, (p, i) ∈ fetched r.trace → p = e.partitionIdx ∧ 0 ≤ i ∧ i < N)
    ?_ ops e ⟨rfl, h0, hN⟩
    (fun op hop st req heq => hst st req (heq ▸ hop)) rs hrun
  · exact forall₂_right _ ops rs hall
  · intro x op r ⟨hxi, hx0, hxN⟩ hgood hstep
    cases op with
    | callOpen =>
      simp [step] at hstep
      subst hstep
      obtain ⟨hi, hc, _, ht, _⟩ := Open_fields baseOpen x
      beta_reduce
      rw [hi, hc, ht]
      exact ⟨⟨hxi, hx0, hxN⟩, hx0, hxN, by simp [fetched]⟩
    | callClose st =>
      simp [step] at hstep
      subst hstep
      obtain ⟨hi, hc, _⟩ := Close_fields baseClose { x with partitionInDisk := st }
      obtain ⟨hf, _⟩ := Close_trace baseClose { x with partitionInDisk := st }
      beta_reduce
      rw [hi, hc, hf]
      exact ⟨⟨hxi, hx0, hxN⟩, hx0, hxN, by simp⟩
    | callNext st req =>
      have hnum := hgood st req rfl
      cases hr1 : Next { x with partitionInDisk := st } req with
      | error p => simp [step, hr1] at hstep
      | ok r1 =>
        simp [step, hr1] at hstep
        subst hstep
        obtain ⟨hi, _, hcase⟩ := Next_index { x with partitionInDisk := st } req r1 hr1
        simp only at hi hcase ⊢
        rcases hcase with ⟨hc, hf⟩ | ⟨n, hn, hlt, hf, hc⟩
        · rw [hi, hc, hf]
          exact ⟨⟨hxi, hx0, hxN⟩, hx0, hxN, by simp⟩
        · rw [hxi, hnum] at hn
          cases hn
          rw [hi, hf]
          have hb : 0 ≤ r1.exec.chkIdx ∧ r1.exec.chkIdx ≤ N := by
            rcases hc with hc | hc <;> rw [hc] <;> constructor <;> omega
          refine ⟨⟨hxi, hb⟩, hb.1, hb.2, ?_⟩
          intro p i hm
          simp at hm
          obtain ⟨rfl, rfl⟩ := hm
          exact ⟨hxi, hx0, hlt⟩

theorem chkIdx_within_count_witness :
    (0 : Int) ≤ (newExec (constStore 2) 0).chkIdx ∧
    (newExec (constStore 2) 0).chkIdx ≤ 2 ∧
    (∀ st req, Op.callNext st req ∈
        [Op.callOpen, Op.callNext (constStore 2) emptyChunk,
          Op.callNext (faultyStore 2 1) emptyChunk, Op.callOpen,
          Op.callNext (constStore 2) emptyChunk, Op.callNext (constStore 2) emptyChunk] →
      st.NumChunks (newExec (constStore 2) 0).partitionIdx = .ok 2) ∧
    ((∀ rs, runOps baseOk baseOk (newExec (constStore 2) 0)
        [Op.callOpen, Op.callNext (constStore 2) emptyChunk,
          Op.callNext (faultyStore 2 1) emptyChunk, Op.callOpen,
          Op.callNext (constStore 2) emptyChunk, Op.callNext (constStore 2) emptyChunk]
        = .ok rs → ∀ r ∈ rs,
      0 ≤ r.exec.chkIdx ∧ r.exec.chkIdx ≤ 2 ∧
      ∀ p i, (p, i) ∈ fetched r.trace →
        p = (newExec (constStore 2) 0).partitionIdx ∧ 0 ≤ i ∧ i < 2) ∧
    (BarrierConsistent (newExec (constStore 2) 0) →
      ∃ rs, runOps baseOk baseOk (newExec (constStore 2) 0)
        [Op.callOpen, Op.callNext (constStore 2) emptyChunk,
          Op.callNext (faultyStore 2 1) emptyChunk, Op.callOpen,
          Op.callNext (constStore 2) emptyChunk, Op.callNext (constStore 2) emptyChunk]
        = .ok rs ∧
        rs.length = [Op.callOpen, Op.callNext (constStore 2) emptyChunk,
          Op.callNext (faultyStore 2 1) emptyChunk, Op.callOpen,
          Op.callNext (constStore 2) emptyChunk,
          Op.callNext (constStore 2) emptyChunk].length)) :=
  have hst : ∀ st req, Op.callNext st req ∈
        [Op.callOpen, Op.callNext (constStore 2) emptyChunk,
          Op.callNext (faultyStore 2 1) emptyChunk, Op.callOpen,
          Op.callNext (constStore 2) emptyChunk, Op.callNext (constStore 2) emptyChunk] →
      st.NumChunks (newExec (constStore 2) 0).partitionIdx = .ok 2 := by
    intro st req h
    simp at h
    rcases h with ⟨rfl, _⟩ | ⟨rfl, _⟩ | ⟨rfl, _⟩ <;> rfl
  ⟨by decide, by decide, hst,
    chkIdx_within_count baseOk baseOk (newExec (constStore 2) 0) 2 _ (by decide) (by decide) hst⟩

/-- C12. None of `Open`, `Next` and `Close` changes `partitionIdx`: `Open` makes
no call on the store, `Close` makes exactly one, for `partitionIdx`, and every
call `Next` makes on the store is for `partitionIdx`.  Hence after every call of
any run of `Open`, `Next` and `Close` calls `partitionIdx` is what it was at the
start and every call made on the store addressed that partition; a run that
starts with a consistent barrier never panics. -/
theorem partition_binding_fixed {β : Type} (baseOpen baseClose : β → β × Option Error)
    (e : PartitionerExec β) (req : Chunk) (ops : List Op) :
    ((Open baseOpen e).exec.partitionIdx = e.partitionIdx ∧
      storeCalls (Open baseOpen e).trace = []) ∧
    ((Close baseClose e).exec.partitionIdx = e.partitionIdx ∧
      storeCalls (Close baseClose e).trace = [e.partitionIdx]) ∧
    (∀ r, Next e req = .ok r →
      r.exec.partitionIdx = e.partitionIdx ∧ ∀ p ∈ storeCalls r.trace, p = e.partitionIdx) ∧
    (∀ rs, runOps baseOpen baseClose e ops = .ok rs → ∀ r ∈ rs,
      r.exec.partitionIdx = e.partitionIdx ∧ ∀ p ∈ storeCalls r.trace, p = e.partitionIdx) ∧
    (BarrierConsistent e →
      ∃ rs, runOps baseOpen baseClose e ops = .ok rs ∧ rs.length = ops.length) := by
  have hopen : ∀ x : PartitionerExec β, (Open baseOpen x).exec.partitionIdx = x.partitionIdx ∧
      storeCalls (Open baseOpen x).trace = [] := by
    intro x
    obtain ⟨hi, _, _, ht, _⟩ := Open_fields baseOpen x
    exact ⟨hi, by rw [ht]; rfl⟩
  have hclose : ∀ x : PartitionerExec β,
      (Close baseClose x).exec.partitionIdx = x.partitionIdx ∧
      storeCalls (Close baseClose x).trace = [x.partitionIdx] := by
    intro x
    exact ⟨(Close_fields baseClose x).1, (Close_trace baseClose x).2.1⟩
  have hnext : ∀ (x : PartitionerExec β) (q : Chunk) (r : NextResult β), Next x q = .ok r →
      r.exec.partitionIdx = x.partitionIdx ∧ ∀ p ∈ storeCalls r.trace, p = x.partitionIdx := by
    intro x q r hr
    obtain ⟨hi, hs, _⟩ := Next_index x q r hr
    exact ⟨hi, hs⟩
  refine ⟨hopen e, hclose e, hnext e req, ?_, fun hc => runOps_ok baseOpen baseClose ops e hc⟩
  intro rs hrun
  have hall := runOps_forall₂ baseOpen baseClose
    (fun x => x.partitionIdx = e.partitionIdx) (fun _ => True)
    (fun _ r => r.exec.partitionIdx = e.partitionIdx ∧
      ∀ p ∈ storeCalls r.trace, p = e.partitionIdx)
    ?_ ops e rfl (fun _ _ => trivial) rs hrun
  · exact forall₂_right _ ops rs hall
  · intro x op r hx _ hstep
    beta_reduce at hx ⊢
    cases op with
    | callOpen =>
      simp [step] at hstep
      subst hstep
      obtain ⟨hi, hs⟩ := hopen x
      rw [hi, hs]
      exact ⟨hx, hx, by simp⟩
    | callClose st =>
      simp [step] at hstep
      subst hstep
      obtain ⟨hi, hs⟩ := hclose { x with partitionInDisk := st }
      rw [hi, hs]
      exact ⟨hx, hx, by simp [hx]⟩
    | callNext st q =>
      cases hr1 : Next { x with partitionInDisk := st } q with
      | error p => simp [step, hr1] at hstep
      | ok r1 =>
        simp [step, hr1] at hstep
        subst hstep
        obtain ⟨hi, hs⟩ := hnext { x with partitionInDisk := st } q r1 hr1
        simp only at hi hs ⊢
        rw [hi]
        exact ⟨hx, hx, fun p hp => (hs p hp).trans hx⟩

theorem partition_binding_fixed_witness :
    ((Open baseOk (newExec (constStore 2) 5)).exec.partitionIdx = 5 ∧
      storeCalls (Open baseOk (newExec (constStore 2) 5)).trace = []) ∧
    ((Close baseOk (newExec (constStore 2) 5)).exec.partitionIdx = 5 ∧
      storeCalls (Close baseOk (newExec (constStore 2) 5)).trace = [5]) ∧
    (∀ r, Next (newExec (constStore 2) 5) emptyChunk = .ok r →
      r.exec.partitionIdx = 5 ∧ ∀ p ∈ storeCalls r.trace, p = 5) ∧
    (∀ rs, runOps baseOk baseOk (newExec (constStore 2) 5)
        [Op.callOpen, Op.callNext (constStore 2) emptyChunk, Op.callClose brokenStore,
          Op.callNext (constStore 2) emptyChunk, Op.callClose (constStore 2)] = .ok rs →
      ∀ r ∈ rs, r.exec.partitionIdx = 5 ∧ ∀ p ∈ storeCalls r.trace, p = 5) ∧
    (BarrierConsistent (newExec (constStore 2) 5) →
      ∃ rs, runOps baseOk baseOk (newExec (constStore 2) 5)
        [Op.callOpen, Op.callNext (constStore 2) emptyChunk, Op.callClose brokenStore,
          Op.callNext (constStore 2) emptyChunk, Op.callClose (constStore 2)] = .ok rs ∧
        rs.length = [Op.callOpen, Op.callNext (constStore 2) emptyChunk,
          Op.callClose brokenStore, Op.callNext (constStore 2) emptyChunk,
          Op.callClose (constStore 2)].length) :=
  partition_binding_fixed baseOk baseOk (newExec (constStore 2) 5) emptyChunk
    [Op.callOpen, Op.callNext (constStore 2) emptyChunk, Op.callClose brokenStore,
      Op.callNext (constStore 2) emptyChunk, Op.callClose (constStore 2)]

/-! ## Behaviour of the code as written -/

/-- C14. On a cursor whose barrier is consistent, a `Next` call that returns an
error leaves `prepared` true and the wait group's counter at `1`, whether
`prepared` was false on entry (then the only call on the wait group is the
`Add(1)` that starts the pass) or true (then there is no call on the wait group
at all); `Done` is not called. -/
theorem error_leaves_pass_open {β : Type} (e : PartitionerExec β) (req : Chunk)
    (h : BarrierConsistent e) :
    ∃ r, Next e req = .ok r ∧
      (r.err ≠ none →
        r.exec.prepared = true ∧ r.exec.partitionWaitGroup.counter = 1 ∧
        barrierCalls r.trace = (if e.prepared then [] else [(1, 0)]) ∧
        ∀ b, (-1, b) ∉ barrierCalls r.trace) := by
  have hbt : barrierCalls (enterTrace e) = if e.prepared then [] else [(1, 0)] := by
    unfold enterTrace
    split <;> rfl
  cases hn : e.partitionInDisk.NumChunks e.partitionIdx with
  | error err =>
    refine ⟨_, Next_numChunks_error e req err h hn, fun _ => ⟨rfl, rfl, ?_, ?_⟩⟩
    · simp [barrierCalls_append, hbt, barrierCalls]
    · simp [barrierCalls_append, hbt, barrierCalls]
  | ok n =>
    by_cases hc : n ≤ e.chkIdx
    · exact ⟨_, Next_exhausted e req n h hn hc, fun herr => absurd rfl herr⟩
    · have hlt : e.chkIdx < n := not_le.mp hc
      cases hg : (e.partitionInDisk.GetChunk e.partitionIdx e.chkIdx req).2 with
      | some err =>
        refine ⟨_, Next_getChunk_error e req n err h hn hlt hg, fun _ => ⟨rfl, rfl, ?_, ?_⟩⟩
        · simp [barrierCalls_append, hbt, barrierCalls]
        · simp [barrierCalls_append, hbt, barrierCalls]
      | none =>
        exact ⟨_, Next_getChunk_ok e req n h hn hlt hg, fun herr => absurd rfl herr⟩

theorem error_leaves_pass_open_witness :
    BarrierConsistent (newExec brokenStore 0) ∧
    ∃ r, Next (newExec brokenStore 0) emptyChunk = .ok r ∧
      (r.err ≠ none →
        r.exec.prepared = true ∧ r.exec.partitionWaitGroup.counter = 1 ∧
        barrierCalls r.trace = (if (newExec brokenStore 0).prepared then [] else [(1, 0)]) ∧
        ∀ b, (-1, b) ∉ barrierCalls r.trace) :=
  ⟨by decide, error_leaves_pass_open (newExec brokenStore 0) emptyChunk (by decide)⟩

/-- C15. `Close` leaves `prepared`, `chkIdx` and the wait group exactly as they
were and makes no call on the wait group, whether the store's release fails or
not and whether `baseExecutor.Close` fails or not; in particular `Close` on a
cursor with `prepared` true and counter `1` returns with `prepared` true and
the counter still `1`. -/
theorem Close_leaves_barrier {β : Type} (baseClose : β → β × Option Error)
    (e : PartitionerExec β) :
    (Close baseClose e).exec.prepared = e.prepared ∧
    (Close baseClose e).exec.chkIdx = e.chkIdx ∧
    (Close baseClose e).exec.partitionWaitGroup = e.partitionWaitGroup ∧
    barrierCalls (Close baseClose e).trace = [] ∧
    (Close baseClose
      { e with prepared := true, partitionWaitGroup := { counter := 1 } }).exec.prepared = true ∧
    (Close baseClose
      { e with prepared := true, partitionWaitGroup := { counter := 1 }
      }).exec.partitionWaitGroup.counter = 1 := by
  obtain ⟨_, hc, _, hp, hw⟩ := Close_fields baseClose e
  obtain ⟨_, _, _, hp1, hw1⟩ := Close_fields baseClose
    { e with prepared := true, partitionWaitGroup := { counter := 1 } }
  exact ⟨hp, hc, hw, (Close_trace baseClose e).2.2, hp1, by rw [hw1]⟩

/-- C16, as the claim states it, fails: over a one-chunk store, the first `Next`
call leaves one row in the buffer; the second call, handed that same buffer,
signals the end of the partition and the buffer still holds that row. -/
theorem end_signal_keeps_buffer_counterexample :
    (runNext (Open baseOk (newExec (constStore 1) 0)).exec
        [(constStore 1, emptyChunk), (constStore 1, { rows := [[0, 0]] })]).map
      (List.map (fun r => (r.err, fetched r.trace, r.req, r.req.NumRows)))
      = .ok [(none, [(0, 0)], { rows := [[0, 0]] }, 1), (none, [], { rows := [[0, 0]] }, 1)] := by
  rfl

/-- C16, amended. `Next` does not touch the caller's buffer when it signals
the end of the partition: whenever a `Next` call returns no error and has
fetched nothing, `req` after the call is `req` as it was on entry, so it holds zero
rows after the call exactly when it did on entry.  On a cursor with a
consistent barrier whose `chkIdx` is at or beyond the chunk count, `Next` does
return with that signal. -/
theorem end_signal_keeps_buffer {β : Type} (e : PartitionerExec β) (req : Chunk) :
    (∀ r, Next e req = .ok r → r.endOfPartition →
      r.req = req ∧ (r.req.NumRows = 0 ↔ req.NumRows = 0)) ∧
    (∀ n, BarrierConsistent e → e.partitionInDisk.NumChunks e.partitionIdx = .ok n →
      n ≤ e.chkIdx → ∃ r, Next e req = .ok r ∧ r.endOfPartition ∧ r.req = req) := by
  constructor
  · intro r hr heof
    obtain ⟨e1, t1, hp, _, hcase⟩ := Next_shape e req r hr
    obtain ⟨hf, _, _⟩ := fetched_enterPass e e1 t1 hp
    have hreq : r.req = req := by
      rcases hcase with ⟨_, _, _, _, herr⟩ | ⟨_, _, _, _, _, _, hq, _⟩ | ⟨_, _, _, ht, _⟩
      · rw [heof.1] at herr
        cases herr
      · exact hq
      · have := heof.2
        rw [ht, fetched_append, hf] at this
        simp [fetched] at this
    exact ⟨hreq, by rw [hreq]⟩
  · intro n hcons hn hc
    refine ⟨_, Next_exhausted e req n hcons hn hc, ?_, rfl⟩
    simp [NextResult.endOfPartition, fetched_append, fetched_enterTrace, fetched]

theorem end_signal_keeps_buffer_witness :
    (∀ r, Next exhaustedExec { rows := [[0, 1]] } = .ok r → r.endOfPartition →
      r.req = { rows := [[0, 1]] } ∧
      (r.req.NumRows = 0 ↔ Chunk.NumRows { rows := [[0, 1]] } = 0)) ∧
    BarrierConsistent exhaustedExec ∧
    exhaustedExec.partitionInDisk.NumChunks exhaustedExec.partitionIdx = .ok 2 ∧
    (2 : Int) ≤ exhaustedExec.chkIdx ∧
    ∃ r, Next exhaustedExec { rows := [[0, 1]] } = .ok r ∧ r.endOfPartition ∧
      r.req = { rows := [[0, 1]] } :=
  ⟨(end_signal_keeps_buffer exhaustedExec { rows := [[0, 1]] }).1, by decide, rfl, by decide,
    (end_signal_keeps_buffer exhaustedExec { rows := [[0, 1]] }).2 2 (by decide) rfl (by decide)⟩

/-- C17. Let a `Next` call on a cursor with a consistent barrier signal the end
of the partition over a store that reports the count `N`.  Then in every run of
further `Open` and `Next` calls over stores that report the same count, no call
panics and after each call `chkIdx` is what it was at exhaustion, `prepared` is
false and the counter is `0`; each of these `Next` calls returns `nil`, calls
`GetChunk` not at all, and makes exactly two calls on the wait group: one
`Add(1)` at counter `0`, then one `Done` at counter `1`. -/
theorem exhaustion_absorbing {β : Type} (baseOpen baseClose : β → β × Option Error)
    (e : PartitionerExec β) (st : PartitionInDisk) (N : Int) (req : Chunk)
    (r0 : NextResult β) (ops : List Op)
    (hcons : BarrierConsistent e)
    (hnum : st.NumChunks e.partitionIdx = .ok N)
    (hr0 : Next { e with partitionInDisk := st } req = .ok r0)
    (heof : r0.endOfPartition)
    (hops : ∀ op ∈ ops, op = Op.callOpen ∨
      ∃ st1 req1, op = Op.callNext st1 req1 ∧ st1.NumChunks e.partitionIdx = .ok N) :
    r0.exec.chkIdx = e.chkIdx ∧
    ∃ rs, runOps baseOpen baseClose r0.exec ops = .ok rs ∧
      List.Forall₂
        (fun op r =>
          r.exec.chkIdx = r0.exec.chkIdx ∧ r.exec.prepared = false ∧
          r.exec.partitionWaitGroup.counter = 0 ∧
          (∀ st1 req1, op = Op.callNext st1 req1 →
            r.err = none ∧ fetched r.trace = [] ∧
            barrierCalls r.trace = [(1, 0), (-1, 1)]))
        ops rs := by
  -- the exhausting call
  have hc0 : BarrierConsistent { e with partitionInDisk := st } := hcons
  obtain ⟨e1, t1, hp, _, hcase⟩ := Next_shape { e with partitionInDisk := st } req r0 hr0
  obtain ⟨hf, _, _⟩ := fetched_enterPass _ e1 t1 hp
  have hle : N ≤ e.chkIdx := by
    rcases hcase with ⟨_, _, _, _, herr⟩ | ⟨n, hn, hge, _⟩ | ⟨_, _, _, ht, _⟩
    · rw [heof.1] at herr
      cases herr
    · have hn1 : st.NumChunks e.partitionIdx = .ok n := hn
      rw [hnum] at hn1
      cases hn1
      exact hge
    · have := heof.2
      rw [ht, fetched_append, hf] at this
      simp [fetched] at this
  have hstep0 := Next_exhausted { e with partitionInDisk := st } req N hc0 hnum hle
  rw [hstep0] at hr0
  cases hr0
  refine ⟨rfl, ?_⟩
  have hidle : BarrierConsistent
      ({ e with partitionInDisk := st, partitionWaitGroup := { counter := 0 }
                prepared := false } : PartitionerExec β) := by
    simp [BarrierConsistent]
  obtain ⟨rs, hrun, _⟩ := runOps_ok baseOpen baseClose ops _ hidle
  refine ⟨rs, hrun, ?_⟩
  refine runOps_forall₂ baseOpen baseClose
    (fun x => x.chkIdx = e.chkIdx ∧ x.partitionIdx = e.partitionIdx ∧ x.prepared = false ∧
      x.partitionWaitGroup.counter = 0)
    (fun op => op = Op.callOpen ∨
      ∃ st1 req1, op = Op.callNext st1 req1 ∧ st1.NumChunks e.partitionIdx = .ok N)
    _ ?_ ops
    { e with partitionInDisk := st, partitionWaitGroup := { counter := 0 }, prepared := false }
    ⟨rfl, rfl, rfl, rfl⟩ hops rs hrun
  intro x op r ⟨hxc, hxi, hxp, hxw⟩ hgood hstep
  beta_reduce
  rcases hgood with rfl | ⟨st1, req1, rfl, hn1⟩
  · simp [step] at hstep
    subst hstep
    obtain ⟨hi, hc, _, _, hidle1⟩ := Open_fields baseOpen x
    obtain ⟨hp1, hw1⟩ := hidle1 hxp hxw
    refine ⟨⟨hc.trans hxc, hi.trans hxi, hp1, hw1⟩, hc.trans hxc, hp1, hw1, ?_⟩
    intro st1 req1 hne
    cases hne
  · have hcx : BarrierConsistent { x with partitionInDisk := st1 } := by
      simp [BarrierConsistent, hxp, hxw]
    have hnx := Next_exhausted { x with partitionInDisk := st1 } req1 N hcx
      (by simpa [hxi] using hn1) (by simpa [hxc] using hle)
    simp [step, hnx] at hstep
    subst hstep
    refine ⟨⟨hxc, hxi, rfl, rfl⟩, hxc, rfl, rfl, ?_⟩
    intro _ _ _
    simp [enterTrace, hxp, fetched, barrierCalls]

theorem exhaustion_absorbing_witness :
    BarrierConsistent activeExec ∧
    (constStore 2).NumChunks activeExec.partitionIdx = .ok 2 ∧
    Next { activeExec with partitionInDisk := constStore 2 } emptyChunk = .ok
      { exec := exhaustedExec, req := emptyChunk, err := none
        trace := [Event.numChunks 0, Event.wgAdd (-1) 1] } ∧
    NextResult.endOfPartition
      ({ exec := exhaustedExec, req := emptyChunk, err := none
         trace := [Event.numChunks 0, Event.wgAdd (-1) 1] } : NextResult Nat) ∧
    (∀ op ∈ [Op.callNext (constStore 2) emptyChunk, Op.callOpen,
        Op.callNext (constStore 2) emptyChunk],
      op = Op.callOpen ∨ ∃ st1 req1, op = Op.callNext st1 req1 ∧
        st1.NumChunks activeExec.partitionIdx = .ok 2) ∧
    (exhaustedExec.chkIdx = activeExec.chkIdx ∧
    ∃ rs, runOps baseOk baseOk exhaustedExec
        [Op.callNext (constStore 2) emptyChunk, Op.callOpen,
          Op.callNext (constStore 2) emptyChunk] = .ok rs ∧
      List.Forall₂
        (fun op r =>
          r.exec.chkIdx = exhaustedExec.chkIdx ∧ r.exec.prepared = false ∧
          r.exec.partitionWaitGroup.counter = 0 ∧
          (∀ st1 req1, op = Op.callNext st1 req1 →
            r.err = none ∧ fetched r.trace = [] ∧
            barrierCalls r.trace = [(1, 0), (-1, 1)]))
        [Op.callNext (constStore 2) emptyChunk, Op.callOpen,
          Op.callNext (constStore 2) emptyChunk] rs) :=
  have hops : ∀ op ∈ [Op.callNext (constStore 2) emptyChunk, Op.callOpen,
        Op.callNext (constStore 2) emptyChunk],
      op = Op.callOpen ∨ ∃ st1 req1, op = Op.callNext st1 req1 ∧
        st1.NumChunks activeExec.partitionIdx = .ok 2 := by
    intro op hop
    simp only [List.mem_cons, List.mem_singleton, List.not_mem_nil, or_false] at hop
    rcases hop with rfl | rfl | rfl
    · exact Or.inr ⟨_, _, rfl, rfl⟩
    · exact Or.inl rfl
    · exact Or.inr ⟨_, _, rfl, rfl⟩
  ⟨by decide, rfl, rfl, by decide, hops,
    exhaustion_absorbing baseOk baseOk activeExec (constStore 2) 2 emptyChunk
      { exec := exhaustedExec, req := emptyChunk, err := none
        trace := [Event.numChunks 0, Event.wgAdd (-1) 1] }
      [Op.callNext (constStore 2) emptyChunk, Op.callOpen,
        Op.callNext (constStore 2) emptyChunk]
      (by decide) rfl rfl (by decide) hops⟩

end Partitioner

namespace Generator

open Partitioner (Error)

/-! ## Column lemmas -/

theorem getElem?_of_lt {α : Type} (l : List α) (i : Nat) (h : i < l.length) :
    ∃ a, l[i]? = some a := by
  rw [List.getElem?_eq_getElem h]
  exact ⟨_, rfl⟩

theorem row_congr {α : Type} (c d : Column α) (i : Nat)
    (hn : d.nulls[i]? = c.nulls[i]?) (hd : d.data[i]? = c.data[i]?) : d.row i = c.row i := by
  unfold Column.row
  rw [hn, hd]

/-- Writing a row in place, for a fixed-length type. -/
theorem writeRow_fixed {α : Type} [Inhabited α] (n k m : Nat) (buf : Column α)
    (s : LoopState α) (hbn : buf.nulls.length = n) (hbd : buf.data.length = n) (hm : m < n)
    (hn : s.result.nulls.length = n) (hd : s.result.data.length = n)
    (hfree : s.result.nulls[m]? = some false) :
    ∃ s1, writeRow true k buf m s = .ok s1 ∧
      s1.result.nulls.length = n ∧ s1.result.data.length = n ∧
      s1.result.row m = buf.row m ∧
      (∀ i, i ≠ m → s1.result.nulls[i]? = s.result.nulls[i]? ∧
        s1.result.data[i]? = s.result.data[i]?) ∧
      s1.written = s.written ++ [(m, k)] := by
  obtain ⟨bn, hbn1⟩ := getElem?_of_lt buf.nulls m (by omega)
  obtain ⟨bv, hbv1⟩ := getElem?_of_lt buf.data m (by omega)
  obtain ⟨rv, hrv1⟩ := getElem?_of_lt s.result.data m (by omega)
  cases bn with
  | true =>
    refine ⟨{ result := { s.result with nulls := s.result.nulls.set m true }
              written := s.written ++ [(m, k)] }, ?_, ?_, hd, ?_, ?_, rfl⟩
    · simp [writeRow, Column.IsNull, indexAt, hbn1, Column.SetNull, setAt, hn, hm]
    · simp [hn]
    · simp [Column.row, hbn1, hn, hm]
    · intro i hi
      exact ⟨by simp [List.getElem?_set_ne (Ne.symm hi)], rfl⟩
  | false =>
    refine ⟨{ result := { s.result with data := s.result.data.set m bv }
              written := s.written ++ [(m, k)] }, ?_, hn, ?_, ?_, ?_, rfl⟩
    · simp [writeRow, Column.IsNull, indexAt, hbn1, hbv1, setAt, hd, hm]
    · simp [hd]
    · simp [Column.row, hbn1, hbv1, hfree, hd, hm]
    · intro i hi
      exact ⟨rfl, by simp [List.getElem?_set_ne (Ne.symm hi)]⟩

/-- Writing a row by appending, for a variable-length type. -/
theorem writeRow_var {α : Type} [Inhabited α] (n k m : Nat) (buf : Column α)
    (s : LoopState α) (hbn : buf.nulls.length = n) (hbd : buf.data.length = n) (hm : m < n)
    (hn : s.result.nulls.length = m) (hd : s.result.data.length = m) :
    ∃ s1, writeRow false k buf m s = .ok s1 ∧
      s1.result.nulls.length = m + 1 ∧ s1.result.data.length = m + 1 ∧
      s1.result.row m = buf.row m ∧
      (∀ i, i < m → s1.result.nulls[i]? = s.result.nulls[i]? ∧
        s1.result.data[i]? = s.result.data[i]?) ∧
      s1.written = s.written ++ [(m, k)] := by
  obtain ⟨bn, hbn1⟩ := getElem?_of_lt buf.nulls m (by omega)
  obtain ⟨bv, hbv1⟩ := getElem?_of_lt buf.data m (by omega)
  cases bn with
  | true =>
    refine ⟨{ result := s.result.AppendNull, written := s.written ++ [(m, k)] },
      ?_, ?_, ?_, ?_, ?_, rfl⟩
    · simp [writeRow, Column.IsNull, indexAt, hbn1, Column.NumRows, hn]
    · simp [Column.AppendNull, hn]
    · simp [Column.AppendNull, hd]
    · have h1 : (s.result.nulls ++ [true])[m]? = some true := by
        rw [← hn]; simp
      simp [Column.row, Column.AppendNull, hbn1, h1]
    · intro i hi
      simp [Column.AppendNull, List.getElem?_append_left, hn, hd, hi]
  | false =>
    refine ⟨{ result := s.result.Append bv, written := s.written ++ [(m, k)] },
      ?_, ?_, ?_, ?_, ?_, rfl⟩
    · simp [writeRow, Column.IsNull, Column.Get, indexAt, hbn1, hbv1, Column.NumRows, hn]
    · simp [Column.Append, hn]
    · simp [Column.Append, hd]
    · have h1 : (s.result.nulls ++ [false])[m]? = some false := by
        rw [← hn]; simp
      have h2 : (s.result.data ++ [bv])[m]? = some bv := by
        rw [← hd]; simp
      simp [Column.row, Column.Append, hbn1, hbv1, h1, h2]
    · intro i hi
      simp [Column.Append, List.getElem?_append_left, hn, hd, hi]

/-- On a row within the condition buffer the switch runs exactly one of its two
cases: the first, which copies from the third argument, when the condition is
NULL or zero, and the second, which copies from the second argument,
otherwise. -/
theorem rowBody_eq {α : Type} [Inhabited α] (fixed : Bool) (n m : Nat) (buf0 : Column Int)
    (buf1 buf2 : Column α) (s : LoopState α)
    (h0n : buf0.nulls.length = n) (h0d : buf0.data.length = n) (hm : m < n) :
    rowBody fixed buf0 buf1 buf2 m s =
      if buf0.nulls[m]? = some true ∨ buf0.data[m]? = some 0 then writeRow fixed 2 buf2 m s
      else writeRow fixed 1 buf1 m s := by
  obtain ⟨b, hb⟩ := getElem?_of_lt buf0.nulls m (by omega)
  obtain ⟨a, ha⟩ := getElem?_of_lt buf0.data m (by omega)
  simp only [rowBody, indexAt, Column.IsNull, ha, hb]
  cases b <;> by_cases hz : a = 0 <;> simp [hz]

theorem forRows_inv {σ : Type} (body : Nat → σ → Except VecPanic σ) (I : Nat → σ → Prop)
    (k : Nat) : ∀ (i0 : Nat) (s : σ),
      (∀ i t, i0 ≤ i → i < i0 + k → I i t → ∃ t1, body i t = .ok t1 ∧ I (i + 1) t1) →
      I i0 s → ∃ s1, forRows body i0 k s = .ok s1 ∧ I (i0 + k) s1 := by
  induction k with
  | zero => intro i0 s _ h; exact ⟨s, rfl, h⟩
  | succ k ih =>
    intro i0 s hstep h
    obtain ⟨t1, ht1, hI1⟩ := hstep i0 s (le_refl _) (by omega) h
    obtain ⟨s1, hs1, hI⟩ := ih (i0 + 1) t1
      (fun i t hi1 hi2 hit => hstep i t (by omega) (by omega) hit) hI1
    refine ⟨s1, by simp [forRows, ht1, hs1], ?_⟩
    have : i0 + (k + 1) = i0 + 1 + k := by omega
    rw [this]; exact hI

/-- The row loop over three buffers of `n` rows each. -/
theorem forRows_rowBody {α : Type} [Inhabited α] (fixed : Bool) (n : Nat) (buf0 : Column Int)
    (buf1 buf2 : Column α) (s : LoopState α)
    (h0n : buf0.nulls.length = n) (h0d : buf0.data.length = n)
    (h1n : buf1.nulls.length = n) (h1d : buf1.data.length = n)
    (h2n : buf2.nulls.length = n) (h2d : buf2.data.length = n)
    (hw : s.written = [])
    (hinit : if fixed then s.result.nulls.length = n ∧ s.result.data.length = n ∧
        (∀ i, i < n → s.result.nulls[i]? = some false)
      else s.result.nulls.length = 0 ∧ s.result.data.length = 0) :
    ∃ s1, forRows (rowBody fixed buf0 buf1 buf2) 0 n s = .ok s1 ∧
      s1.result.nulls.length = n ∧
      (∀ i, i < n → s1.result.row i =
        if buf0.nulls[i]? = some true ∨ buf0.data[i]? = some 0 then buf2.row i
        else buf1.row i) ∧
      s1.written = (List.range n).map (fun i =>
        (i, if buf0.nulls[i]? = some true ∨ buf0.data[i]? = some 0 then 2 else 1)) := by
  have key := forRows_inv (rowBody fixed buf0 buf1 buf2)
    (fun m t =>
      (if fixed then t.result.nulls.length = n ∧ t.result.data.length = n ∧
          (∀ i, m ≤ i → i < n → t.result.nulls[i]? = some false)
        else t.result.nulls.length = m ∧ t.result.data.length = m) ∧
      (∀ i, i < m → t.result.row i =
        if buf0.nulls[i]? = some true ∨ buf0.data[i]? = some 0 then buf2.row i
        else buf1.row i) ∧
      t.written = (List.range m).map (fun i =>
        (i, if buf0.nulls[i]? = some true ∨ buf0.data[i]? = some 0 then 2 else 1)))
    n 0 s ?_ ?_
  · obtain ⟨s1, hs1, hshape, hrows, hwr⟩ := key
    simp only [Nat.zero_add] at hshape hrows hwr
    refine ⟨s1, hs1, ?_, hrows, hwr⟩
    cases fixed
    · simpa using hshape.1
    · simpa using hshape.1
  · intro m t _ hm ⟨hshape, hrows, hwr⟩
    have hm1 : m < n := by omega
    rw [rowBody_eq fixed n m buf0 buf1 buf2 t h0n h0d hm1]
    -- the buffer and the tag the switch selects for this row
    have hsel : ∀ (k : Nat) (buf : Column α), buf.nulls.length = n → buf.data.length = n →
        ∃ t1, writeRow fixed k buf m t = .ok t1 ∧
          (if fixed then t1.result.nulls.length = n ∧ t1.result.data.length = n ∧
              (∀ i, m + 1 ≤ i → i < n → t1.result.nulls[i]? = some false)
            else t1.result.nulls.length = m + 1 ∧ t1.result.data.length = m + 1) ∧
          t1.result.row m = buf.row m ∧
          (∀ i, i < m → t1.result.row i = t.result.row i) ∧
          t1.written = t.written ++ [(m, k)] := by
      intro k buf hbn hbd
      cases fixed
      · simp only [Bool.false_eq_true, if_false] at hshape ⊢
        obtain ⟨t1, ht1, hn1, hd1, hrow, hkeep, hw1⟩ :=
          writeRow_var n k m buf t hbn hbd hm1 hshape.1 hshape.2
        exact ⟨t1, ht1, ⟨hn1, hd1⟩, hrow,
          fun i hi => row_congr _ _ i (hkeep i hi).1 (hkeep i hi).2, hw1⟩
      · simp only [if_true] at hshape ⊢
        obtain ⟨t1, ht1, hn1, hd1, hrow, hkeep, hw1⟩ :=
          writeRow_fixed n k m buf t hbn hbd hm1 hshape.1 hshape.2.1
            (hshape.2.2 m (le_refl _) hm1)
        refine ⟨t1, ht1, ⟨hn1, hd1, ?_⟩, hrow,
          fun i hi => row_congr _ _ i (hkeep i (by omega)).1 (hkeep i (by omega)).2, hw1⟩
        intro i hi1 hi2
        rw [(hkeep i (by omega)).1]
        exact hshape.2.2 i (by omega) hi2
    by_cases hcond : buf0.nulls[m]? = some true ∨ buf0.data[m]? = some 0
    · obtain ⟨t1, ht1, hs1, hrow, hkeep, hw1⟩ := hsel 2 buf2 h2n h2d
      refine ⟨t1, by rw [if_pos hcond]; exact ht1, hs1, ?_, ?_⟩
      · intro i hi
        rcases Nat.lt_succ_iff_lt_or_eq.mp hi with hlt | rfl
        · rw [hkeep i hlt]; exact hrows i hlt
        · rw [hrow, if_pos hcond]
      · rw [hw1, hwr, List.range_succ, List.map_append]
        simp [hcond]
    · obtain ⟨t1, ht1, hs1, hrow, hkeep, hw1⟩ := hsel 1 buf1 h1n h1d
      refine ⟨t1, by rw [if_neg hcond]; exact ht1, hs1, ?_, ?_⟩
      · intro i hi
        rcases Nat.lt_succ_iff_lt_or_eq.mp hi with hlt | rfl
        · rw [hkeep i hlt]; exact hrows i hlt
        · rw [hrow, if_neg hcond]
      · rw [hw1, hwr, List.range_succ, List.map_append]
        simp [hcond]
  · refine ⟨?_, fun i hi => absurd hi (Nat.not_lt_zero i), by simp [hw]⟩
    cases fixed
    · simpa using hinit
    · simp only [if_true] at hinit ⊢
      exact ⟨hinit.1, hinit.2.1, fun i _ hi => hinit.2.2 i hi⟩

/-! ## The generated vectorised IF -/

/-- C18. For both branches of the template (`fixed` true or false): when the
three buffer allocations and the three argument evaluations succeed and each
evaluated buffer has the `n` rows of the input, the generated function returns
`nil` without a panic, the result column has exactly `n` rows, and row `i < n`
of the result is row `i` of the third argument (NULL when that is NULL) when
the condition is NULL or `0`, and row `i` of the second argument (NULL when
that is NULL) otherwise, that is when the condition is not NULL and not `0`.
The rows are written in the order `0 .. n-1`, each exactly once, by exactly one
case of the switch. -/
theorem vecEval_row_semantics {α : Type} [Inhabited α] (fixed : Bool) (a : IfInput α)
    (buf0 : Column Int) (buf1 buf2 : Column α) (stale : Nat → α) (result : Column α)
    (hg0 : a.get0 = none) (he0 : a.eval0 = .ok buf0)
    (hg1 : a.get1 = none) (he1 : a.eval1 = .ok buf1)
    (hg2 : a.get2 = none) (he2 : a.eval2 = .ok buf2)
    (h0n : buf0.nulls.length = a.n) (h0d : buf0.data.length = a.n)
    (h1n : buf1.nulls.length = a.n) (h1d : buf1.data.length = a.n)
    (h2n : buf2.nulls.length = a.n) (h2d : buf2.data.length = a.n) :
    ∃ r, vecEval fixed a stale result = .ok r ∧ r.err = none ∧
      r.result.NumRows = a.n ∧
      (∀ i, i < a.n → r.result.row i =
        if buf0.nulls[i]? = some true ∨ buf0.data[i]? = some 0 then buf2.row i
        else buf1.row i) ∧
      (∀ i, i < a.n →
        ((buf0.nulls[i]? = some true ∨ buf0.data[i]? = some 0) ↔
          ¬ (buf0.nulls[i]? = some false ∧ ∃ v, buf0.data[i]? = some v ∧ v ≠ 0))) ∧
      r.written = (List.range a.n).map (fun i =>
        (i, if buf0.nulls[i]? = some true ∨ buf0.data[i]? = some 0 then 2 else 1)) := by
  obtain ⟨s1, hs1, hlen, hrows, hwr⟩ :=
    forRows_rowBody fixed a.n buf0 buf1 buf2
      { result := if fixed then result.Resize a.n false stale else result.Reserve a.n
        written := [] }
      h0n h0d h1n h1d h2n h2d rfl
      (by
        cases fixed
        · simp [Column.Reserve]
        · simp only [if_true, Column.Resize, List.length_replicate, List.length_map,
            List.length_range, true_and]
          intro i hi
          simp [hi])
  refine ⟨{ result := s1.result, err := none, written := s1.written }, ?_, rfl, hlen, hrows,
    ?_, hwr⟩
  · simp only [vecEval, hg0, he0, hg1, he1, hg2, he2, hs1]
  · intro i hi
    obtain ⟨b, hb⟩ := getElem?_of_lt buf0.nulls i (by omega)
    obtain ⟨v, hv⟩ := getElem?_of_lt buf0.data i (by omega)
    rw [hb, hv]
    cases b <;> by_cases hz : v = 0 <;> simp [hz]

theorem vecEval_row_semantics_witness :
    sampleInput.get0 = none ∧
    sampleInput.eval0 = .ok { nulls := [false, false, true, true], data := [1, 0, 0, 7] } ∧
    sampleInput.get1 = none ∧
    sampleInput.eval1 = .ok { nulls := [false, false, true, false], data := [10, 11, 0, 13] } ∧
    sampleInput.get2 = none ∧
    sampleInput.eval2 = .ok { nulls := [false, true, false, false], data := [20, 0, 22, 23] } ∧
    ∃ r, vecEval true sampleInput (fun _ => 99) { nulls := [true], data := [5] } = .ok r ∧
      r.err = none ∧ r.result.NumRows = sampleInput.n ∧
      (∀ i, i < sampleInput.n → r.result.row i =
        if [false, false, true, true][i]? = some true ∨ [(1 : Int), 0, 0, 7][i]? = some 0
        then (Column.mk [false, true, false, false] [(20 : Int), 0, 22, 23]).row i
        else (Column.mk [false, false, true, false] [(10 : Int), 11, 0, 13]).row i) ∧
      (∀ i, i < sampleInput.n →
        (([false, false, true, true][i]? = some true ∨ [(1 : Int), 0, 0, 7][i]? = some 0) ↔
          ¬ ([false, false, true, true][i]? = some false ∧
            ∃ v, [(1 : Int), 0, 0, 7][i]? = some v ∧ v ≠ 0))) ∧
      r.written = (List.range sampleInput.n).map (fun i =>
        (i, if [false, false, true, true][i]? = some true ∨ [(1 : Int), 0, 0, 7][i]? = some 0
          then 2 else 1)) :=
  ⟨rfl, rfl, rfl, rfl, rfl, rfl,
    vecEval_row_semantics true sampleInput
      { nulls := [false, false, true, true], data := [1, 0, 0, 7] }
      { nulls := [false, false, true, false], data := [10, 11, 0, 13] }
      { nulls := [false, true, false, false], data := [20, 0, 22, 23] }
      (fun _ => 99) { nulls := [true], data := [5] }
      rfl rfl rfl rfl rfl rfl rfl rfl rfl rfl rfl rfl⟩

/-! ## Name defaulting -/

/-- The two assignments of the loop body give the names the comments define. -/
theorem defaulting_eq (ctx : typeContext) :
    (if (if ctx.TypeName = "" then { ctx with TypeName := ctx.ETName } else ctx).TypeNameInColumn
          = "" then
        { (if ctx.TypeName = "" then { ctx with TypeName := ctx.ETName } else ctx) with
          TypeNameInColumn :=
            (if ctx.TypeName = "" then { ctx with TypeName := ctx.ETName } else ctx).TypeName }
      else (if ctx.TypeName = "" then { ctx with TypeName := ctx.ETName } else ctx))
      = resolvedNames ctx := by
  obtain ⟨et, tn, tc, fx⟩ := ctx
  by_cases h1 : tn = "" <;> by_cases h2 : tc = "" <;> simp [resolvedNames, h1, h2]

theorem rangeTypes_spec {τ : Type} (execute : τ → typeContext → Except Error String)
    (tmpl : τ) (k : Nat) : ∀ (i : Nat) (s : GenState τ), i + k = s.types.length →
      (rangeTypes execute tmpl i k s).2.types = s.types ∧
      ∃ done rest, (rangeTypes execute tmpl i k s).2.executed = s.executed ++ done ∧
        done ++ rest = (s.types.drop i).map (fun c => (tmpl, resolvedNames c)) ∧
        ((rangeTypes execute tmpl i k s).1 = none → rest = []) ∧
        ((∀ t c, ∃ out, execute t c = .ok out) →
          (rangeTypes execute tmpl i k s).1 = none) := by
  induction k with
  | zero =>
    intro i s hlen
    refine ⟨rfl, [], [], by simp [rangeTypes], ?_, fun _ => rfl, fun _ => rfl⟩
    simp [List.drop_eq_nil_of_le (by omega : s.types.length ≤ i)]
  | succ k ih =>
    intro i s hlen
    have hi : i < s.types.length := by omega
    have hget : s.types[i]? = some s.types[i] := List.getElem?_eq_getElem hi
    have hdrop : s.types.drop i = s.types[i] :: s.types.drop (i + 1) :=
      List.drop_eq_getElem_cons hi
    simp only [rangeTypes, hget, defaulting_eq]
    cases hex : execute tmpl (resolvedNames s.types[i]) with
    | error err =>
      refine ⟨rfl, [(tmpl, resolvedNames s.types[i])],
        (s.types.drop (i + 1)).map (fun c => (tmpl, resolvedNames c)), rfl, ?_, ?_, ?_⟩
      · rw [hdrop]; rfl
      · intro h; cases h
      · intro hall
        obtain ⟨out, hout⟩ := hall tmpl (resolvedNames s.types[i])
        rw [hex] at hout
        cases hout
    | ok out =>
      obtain ⟨hty, done, rest, hdone, hsplit, hnone, hall⟩ :=
        ih (i + 1)
          { s with w := s.w ++ out, executed := s.executed ++ [(tmpl, resolvedNames s.types[i])] }
          (by simp; omega)
      refine ⟨hty, (tmpl, resolvedNames s.types[i]) :: done, rest, ?_, ?_, hnone, hall⟩
      · rw [hdone]; simp
      · rw [hdrop]
        simp only [List.cons_append, List.map_cons]
        rw [hsplit]

theorem rangeTmpls_spec {τ : Type} (execute : τ → typeContext → Except Error String)
    (tmpls : List τ) : ∀ s : GenState τ,
      (rangeTmpls execute tmpls s).2.types = s.types ∧
      ∃ done rest, (rangeTmpls execute tmpls s).2.executed = s.executed ++ done ∧
        done ++ rest =
          tmpls.flatMap (fun t => s.types.map (fun c => (t, resolvedNames c))) ∧
        ((∀ t c, ∃ out, execute t c = .ok out) → rest = []) := by
  induction tmpls with
  | nil =>
    intro s
    exact ⟨rfl, [], [], by simp [rangeTmpls], by simp, fun _ => rfl⟩
  | cons tmpl tmpls ih =>
    intro s
    obtain ⟨hty, done, rest, hdone, hsplit, hnone, hall⟩ :=
      rangeTypes_spec execute tmpl s.types.length 0 s (by simp)
    simp only [List.drop_zero] at hsplit
    unfold rangeTmpls
    split
    · rename_i err s1 heq
      have h1 : (rangeTypes execute tmpl 0 s.types.length s).1 = some err := by rw [heq]
      have h2 : (rangeTypes execute tmpl 0 s.types.length s).2 = s1 := by rw [heq]
      rw [h2] at hty hdone
      refine ⟨hty, done,
        rest ++ tmpls.flatMap (fun t => s.types.map (fun c => (t, resolvedNames c))),
        hdone, ?_, ?_⟩
      · rw [← List.append_assoc, hsplit]; simp [List.flatMap_cons]
      · intro hok
        rw [hall hok] at h1
        cases h1
    · rename_i s1 heq
      have h1 : (rangeTypes execute tmpl 0 s.types.length s).1 = none := by rw [heq]
      have h2 : (rangeTypes execute tmpl 0 s.types.length s).2 = s1 := by rw [heq]
      rw [h2] at hty hdone
      have hrest : rest = [] := hnone h1
      subst hrest
      obtain ⟨hty2, done2, rest2, hdone2, hsplit2, hall2⟩ := ih s1
      rw [hty] at hsplit2
      refine ⟨hty2.trans hty, done ++ done2, rest2, ?_, ?_, hall2⟩
      · rw [hdone2, hdone, List.append_assoc]
      · rw [List.append_assoc, hsplit2]
        simp only [List.append_nil] at hsplit
        rw [hsplit]; simp [List.flatMap_cons]

/-- C19. `generateDotGo` executes the templates, in order and for each the
entries of `types` in order, with the data `resolvedNames ctx`: `TypeName` is
the given one if non-empty and `ETName` otherwise, `TypeNameInColumn` is the
given one if non-empty and the resolved `TypeName` otherwise, and `ETName` and
`Fixed` are passed through.  The `Execute` calls made are an initial part of
that list, and all of it when no `Execute` fails.  The `types` slice is the
same afterwards.  The entry Datetime/Time gets `TypeNameInColumn` `Time`. -/
theorem generateDotGo_name_defaulting {τ : Type}
    (execute : τ → typeContext → Except Error String)
    (formatSource : String → Except Error String)
    (writeFile : String → String → Option Error)
    (fileName imports : String) (types : List typeContext) (tmpls : List τ) :
    (generateDotGo execute formatSource writeFile fileName imports types tmpls).types = types ∧
    (∃ rest,
      (generateDotGo execute formatSource writeFile fileName imports types tmpls).executed
          ++ rest =
        tmpls.flatMap (fun t => types.map (fun c => (t, resolvedNames c)))) ∧
    ((∀ t c, ∃ out, execute t c = .ok out) →
      (generateDotGo execute formatSource writeFile fileName imports types tmpls).executed =
        tmpls.flatMap (fun t => types.map (fun c => (t, resolvedNames c)))) ∧
    (∀ c : typeContext,
      (resolvedNames c).ETName = c.ETName ∧ (resolvedNames c).Fixed = c.Fixed ∧
      (resolvedNames c).TypeName = (if c.TypeName = "" then c.ETName else c.TypeName) ∧
      (resolvedNames c).TypeNameInColumn =
        (if c.TypeNameInColumn = "" then (resolvedNames c).TypeName
          else c.TypeNameInColumn)) ∧
    resolvedNames
        { ETName := "Datetime", TypeName := "Time", TypeNameInColumn := "", Fixed := true } =
      { ETName := "Datetime", TypeName := "Time", TypeNameInColumn := "Time", Fixed := true } := by
  obtain ⟨hty, done, rest, hdone, hsplit, hall⟩ :=
    rangeTmpls_spec execute tmpls
      { w := header ++ newLine ++ imports, types := types, executed := [] }
  simp only [List.nil_append] at hdone
  have hshape :
      (generateDotGo execute formatSource writeFile fileName imports types tmpls).types =
        (rangeTmpls execute tmpls
          { w := header ++ newLine ++ imports, types := types, executed := [] }).2.types ∧
      (generateDotGo execute formatSource writeFile fileName imports types tmpls).executed =
        (rangeTmpls execute tmpls
          { w := header ++ newLine ++ imports, types := types, executed := [] }).2.executed := by
    unfold generateDotGo
    split
    · rename_i heq
      rw [heq]
      exact ⟨rfl, rfl⟩
    · rename_i heq
      rw [heq]
      split <;> exact ⟨rfl, rfl⟩
  refine ⟨hshape.1.trans hty, ⟨rest, ?_⟩, ?_, fun c => ⟨rfl, rfl, rfl, rfl⟩, by decide⟩
  · rw [hshape.2, hdone]; exact hsplit
  · intro hok
    have hrest := hall hok
    subst hrest
    rw [hshape.2, hdone]
    simpa using hsplit

theorem generateDotGo_name_defaulting_witness :
    (∀ (t : Nat) (c : typeContext), ∃ out, sampleExecute t c = .ok out) ∧
    (generateDotGo sampleExecute (fun s => .ok s) (fun _ _ => none) "out.go" "" typesMap
        [0]).types = typesMap ∧
    (generateDotGo sampleExecute (fun s => .ok s) (fun _ _ => none) "out.go" "" typesMap
        [0]).executed =
      [0].flatMap (fun t => typesMap.map (fun c => (t, resolvedNames c))) :=
  ⟨fun _ _ => ⟨_, rfl⟩,
    (generateDotGo_name_defaulting sampleExecute (fun s => .ok s) (fun _ _ => none)
      "out.go" "" typesMap [0]).1,
    (generateDotGo_name_defaulting sampleExecute (fun s => .ok s) (fun _ _ => none)
      "out.go" "" typesMap [0]).2.2.1 (fun _ _ => ⟨_, rfl⟩)⟩

end Generator
